import Mathlib

/-!
Verification of the route-optimization core of the PragatiDhara repository
(`backend/app/services/route_optimizer.py`), as a shallow embedding.

Modelling conventions:
* Python floats are modelled by exact rationals (`ℚ`); all numeric literals in
  the source are small decimals, written here as rationals.  Because the
  `Rat` arithmetic of the ambient library is opaque to the kernel, the
  embedding computes with kernel-reducible wrappers (`qadd`, `qmul`, `qlt`,
  ...) that are proved equal to the standard operations, so that concrete runs
  of the program can be settled by `decide`.
* `heapq` maintains a multiset of tuples `(f_score, g_score, node, path)` and
  `heappop` returns a least element under Python's lexicographic tuple order.
  Which of several equal least *tuples* is removed does not affect the value
  popped (equal tuples are indistinguishable), so the frontier is modelled as a
  list and `popMin` removes the first occurrence of the least entry under the
  same lexicographic order.  Python compares `str` by code points and `list`
  lexicographically; both are mirrored below.
* A Python `dict` built by `_build_graph` maps a node `v` to the sublist of
  `links` whose `from_node` is `v`, in insertion order; this is exactly
  `links.filter`, so adjacency is modelled by `build_graph`.
* `list.sort(key=..., reverse=True)` is a stable sort; it is modelled by a
  stable insertion sort (`stable_sort`) under the same total preorder.
* Wall-clock bookkeeping (`processing_time_ms`, `time.time()`), logging and the
  disk cache are outside the pure model: `optimize_routes` is modelled for the
  empty-cache case and `RouteResult` keeps only the data-bearing fields.
* Exceptions are modelled with `Except String`: the service methods
  `_find_fast_route`, `_find_eco_route`, `_find_rl_optimized_route` and
  `_find_alternative_routes` call `self._calculate_route_metrics`, an attribute
  that exists on `AStarPathfinder` but not on `RouteOptimizerService`, so the
  branches that reach that call raise `AttributeError` at run time; those
  branches are modelled as `Except.error`.
-/

/-! ### Kernel-computable rational arithmetic -/

/-- Kernel-computable construction of the rational `n / d` in lowest terms. -/
def qnorm (n : ℤ) (d : ℕ) : ℚ :=
  if hd : d = 0 then 0
  else
    Rat.mk' (n / (n.natAbs.gcd d : ℤ)) (d / n.natAbs.gcd d)
      (by
        have hg : n.natAbs.gcd d ≠ 0 := Nat.gcd_ne_zero_right hd
        have hgd : n.natAbs.gcd d ∣ d := Nat.gcd_dvd_right _ _
        have : 0 < d / n.natAbs.gcd d :=
          Nat.div_pos (Nat.le_of_dvd (Nat.pos_of_ne_zero hd) hgd)
            (Nat.pos_of_ne_zero hg)
        omega)
      (by
        have hg : n.natAbs.gcd d ≠ 0 := Nat.gcd_ne_zero_right hd
        have hgn : ((n.natAbs.gcd d : ℤ)) ∣ n :=
          Int.dvd_natAbs.mp (Int.natCast_dvd_natCast.mpr (Nat.gcd_dvd_left _ _))
        have h1 : (n / (n.natAbs.gcd d : ℤ)).natAbs = n.natAbs / n.natAbs.gcd d := by
          rw [Int.natAbs_ediv _ _ hgn]
          simp
        rw [h1]
        exact Nat.coprime_div_gcd_div_gcd (Nat.pos_of_ne_zero hg))

/-- Kernel-computable addition on `ℚ`. -/
def qadd (a b : ℚ) : ℚ := qnorm (a.num * b.den + b.num * a.den) (a.den * b.den)

/-- Kernel-computable multiplication on `ℚ`. -/
def qmul (a b : ℚ) : ℚ := qnorm (a.num * b.num) (a.den * b.den)

/-- Kernel-computable subtraction on `ℚ`. -/
def qsub (a b : ℚ) : ℚ := qnorm (a.num * b.den - b.num * a.den) (a.den * b.den)

/-- Kernel-computable division of a rational by a natural number. -/
def qdivn (a : ℚ) (n : ℕ) : ℚ := qnorm a.num (a.den * n)

/-- Kernel-computable strict comparison on `ℚ`. -/
def qlt (a b : ℚ) : Bool := decide (a.num * b.den < b.num * a.den)

/-- Kernel-computable `≤` on `ℚ`. -/
def qle (a b : ℚ) : Bool := decide (a.num * b.den ≤ b.num * a.den)

/-- Kernel-computable equality test on `ℚ` (`ℚ` values are canonical). -/
def qeq (a b : ℚ) : Bool := decide (a.num = b.num) && decide (a.den = b.den)

/-- Python `min` on floats. -/
def qmin (a b : ℚ) : ℚ := if qle a b then a else b

/-- Python `max` on floats. -/
def qmax (a b : ℚ) : ℚ := if qle a b then b else a

/-- Python `int()` applied to a float: truncation toward zero,
which on exact rationals is `Int.tdiv` of numerator by denominator. -/
def int_py (x : ℚ) : ℤ := x.num.tdiv (x.den : ℤ)

/-! ### The data model of `route_optimizer.py` -/

/-- `RouteLink` dataclass: a directed edge with travel data
(`route_optimizer.py`, lines 31-41).  The unused `road_type` field is omitted. -/
structure RouteLink where
  from_node : String
  to_node : String
  distance : ℚ
  time : ℚ
  eco_priority : Bool
  emissions_multiplier : ℚ
  traffic_factor : ℚ
deriving DecidableEq, Repr

/-- `RouteResult` dataclass (lines 44-54), restricted to its data-bearing
fields (`processing_time_ms` is wall-clock bookkeeping and `cache_hit` is
always `False` on the computation path modelled here). -/
structure RouteResult where
  path : List String
  total_time : ℚ
  total_distance : ℚ
  total_emissions : ℚ
  green_points_score : ℤ
  route_type : String
deriving DecidableEq, Repr

/-- One frontier tuple `(f_score, g_score, node, path)` as pushed on the heap
in `find_path` (lines 82 and 122). -/
structure SearchEntry where
  f : ℚ
  g : ℚ
  node : String
  path : List String
deriving DecidableEq, Repr

/-- Lexicographic comparison of `List α` from a comparison on `α`,
matching Python's list comparison (a strict prefix is smaller). -/
def lexListLt {α : Type} [DecidableEq α] (lt : α → α → Bool) : List α → List α → Bool
  | [], [] => false
  | [], _ :: _ => true
  | _ :: _, [] => false
  | a :: as, b :: bs => lt a b || (decide (a = b) && lexListLt lt as bs)

/-- Python character comparison: by code point. -/
def charLt (a b : Char) : Bool := decide (a < b)

/-- Python `str` comparison: lexicographic by code point. -/
def strLt (a b : String) : Bool := lexListLt charLt a.data b.data

/-- Python tuple comparison on frontier entries, comparing
`f_score`, then `g_score`, then the node string, then the path list. -/
def entryLt (x y : SearchEntry) : Bool :=
  qlt x.f y.f ||
    (qeq x.f y.f &&
      (qlt x.g y.g ||
        (qeq x.g y.g &&
          (strLt x.node y.node ||
            (decide (x.node = y.node) && lexListLt strLt x.path y.path)))))

/-- Remove a least entry (first occurrence) from the frontier; `heappop`
followed by the remaining heap content.  Returns `none` on an empty frontier. -/
def popMin : List SearchEntry → Option (SearchEntry × List SearchEntry)
  | [] => none
  | e :: es =>
    match popMin es with
    | none => some (e, es)
    | some (m, rest) => if entryLt m e then some (m, e :: rest) else some (e, es)

/-- `AStarPathfinder._build_graph` (lines 65-72): the adjacency list of `v`
is the sublist of `links` out of `v`, in insertion order. -/
def build_graph (links : List RouteLink) (v : String) : List RouteLink :=
  links.filter (fun l => l.from_node == v)

/-- `AStarPathfinder._calculate_emissions_cost` (lines 148-151):
`link.time * 100 * link.emissions_multiplier`. -/
def emissions_cost (link : RouteLink) : ℚ :=
  qmul (qmul link.time 100) link.emissions_multiplier

/-- The entries pushed while expanding the popped entry `e`
(lines 108-122); `closed` is the closed set *after* adding `e.node`,
exactly as in the source.  The heuristic (lines 153-156) is `0`, so
`f = new_g + alpha * emissions_cost`. -/
def expand (links : List RouteLink) (alpha : ℚ) (e : SearchEntry)
    (closed : List String) : List SearchEntry :=
  (build_graph links e.node).filterMap fun link =>
    if closed.contains link.to_node then none
    else
      some ⟨qadd (qadd e.g (qmul link.time link.traffic_factor))
              (qmul alpha (emissions_cost link)),
            qadd e.g (qmul link.time link.traffic_factor),
            link.to_node,
            e.path ++ [link.to_node]⟩

/-- The `while open_set:` loop of `find_path` (lines 85-124), parametrized by
the function `pop` that removes a least entry from the frontier (`heappop`
may return any least entry of the heap's multiset; see `PopSpec`).  The Python
loop needs no fuel; every iteration pops one entry and entries are pushed at
most once per (processed node, outgoing link) pair, so any fuel larger than
that bound makes this function extensionally equal to the loop.  Returns the
path and its accumulated `g_score`. -/
def find_path_aux_with
    (pop : List SearchEntry → Option (SearchEntry × List SearchEntry))
    (links : List RouteLink) (goal : String) (alpha : ℚ) :
    Nat → List SearchEntry → List String → Option (List String × ℚ)
  | 0, _, _ => none
  | Nat.succ fuel, open_set, closed_set =>
    match pop open_set with
    | none => none
    | some (e, rest) =>
      if e.node == goal then some (e.path, e.g)
      else if closed_set.contains e.node then
        find_path_aux_with pop links goal alpha fuel rest closed_set
      else
        find_path_aux_with pop links goal alpha fuel
          (rest ++ expand links alpha e (e.node :: closed_set))
          (e.node :: closed_set)

/-- The loop of `find_path` with the concrete frontier model `popMin`. -/
def find_path_aux (links : List RouteLink) (goal : String) (alpha : ℚ) :
    Nat → List SearchEntry → List String → Option (List String × ℚ) :=
  find_path_aux_with popMin links goal alpha

/-- `AStarPathfinder._find_link` (lines 140-146): first link from `a` to `b`
in insertion order (the adjacency list preserves insertion order, so this is
a direct scan of `links`). -/
def find_link (links : List RouteLink) (a b : String) : Option RouteLink :=
  links.find? (fun l => l.from_node == a && l.to_node == b)

/-- `AStarPathfinder._calculate_route_metrics` (lines 126-138): total distance
and total emissions over consecutive pairs, silently skipping missing links. -/
def calculate_route_metrics (links : List RouteLink) : List String → ℚ × ℚ
  | a :: b :: rest =>
    let m := calculate_route_metrics links (b :: rest)
    match find_link links a b with
    | some l => (qadd m.1 l.distance, qadd m.2 (qmul (qmul l.time 100) l.emissions_multiplier))
    | none => m
  | _ => (0, 0)

/-- `AStarPathfinder._calculate_green_points` (lines 158-163):
`max(0, int(100 - min(50, emissions/100) - min(30, time/10)))`. -/
def calculate_green_points (emissions t : ℚ) : ℤ :=
  max 0 (int_py (qsub (qsub 100 (qmin 50 (qdivn emissions 100))) (qmin 30 (qdivn t 10))))

/-- Fuel that strictly dominates the number of loop iterations of one search:
see `find_path_aux`. -/
def search_fuel (links : List RouteLink) (start : String) : Nat :=
  links.length * ((start :: links.map (fun l => l.to_node)).dedup.length) + 2

/-- `AStarPathfinder.find_path` (lines 74-124): guard on known start/end nodes,
run the best-first loop from the single entry `(0, 0, start, [start])`, then
assemble the `RouteResult`; parametrized by the frontier `pop` function. -/
def find_path_with
    (pop : List SearchEntry → Option (SearchEntry × List SearchEntry))
    (nodes : List String) (links : List RouteLink)
    (start goal : String) (alpha : ℚ) : Option RouteResult :=
  if nodes.contains start && nodes.contains goal then
    match find_path_aux_with pop links goal alpha (search_fuel links start)
        [⟨0, 0, start, [start]⟩] [] with
    | some (p, g) =>
      let m := calculate_route_metrics links p
      some ⟨p, g, m.1, m.2, calculate_green_points m.2 g, "optimal"⟩
    | none => none
  else none

/-- `AStarPathfinder.find_path` with the concrete frontier model `popMin`. -/
def find_path (nodes : List String) (links : List RouteLink)
    (start goal : String) (alpha : ℚ) : Option RouteResult :=
  find_path_with popMin nodes links start goal alpha

/-! ### The `RouteOptimizerService` data and strategies -/

/-- The node identifiers of the Pune map, `_load_pune_nodes` (lines 343-356);
only the keys matter to the search. -/
def pune_nodes : List String :=
  ["A", "B", "C", "D", "E", "F", "G", "H", "I", "J"]

/-- The `base_links` table of `_load_pune_links` (lines 358-382).
Field order: from, to, distance, time, eco_priority, emissions_multiplier,
traffic_factor (the latter always defaulted to 1). -/
def pune_base_links : List RouteLink :=
  [⟨"A", "B", 10, 5, false, 1, 1⟩,
   ⟨"A", "C", 12, 6, false, 1, 1⟩,
   ⟨"B", "D", 10, 5, false, 1, 1⟩,
   ⟨"C", "D", 8, 4, false, 1, 1⟩,
   ⟨"D", "E", 5, 2, false, 1, 1⟩,
   ⟨"E", "J", 10, 5, false, 1, 1⟩,
   ⟨"I", "J", 8, 4, false, 1, 1⟩,
   ⟨"C", "F", 8, 4, true, qnorm 1 2, 1⟩,
   ⟨"F", "H", 15, 7, true, qnorm 1 20, 1⟩,
   ⟨"E", "I", 10, 5, true, qnorm 2 5, 1⟩,
   ⟨"G", "D", 12, 5, true, qnorm 7 10, 1⟩,
   ⟨"D", "G", 7, 3, false, 1, 1⟩,
   ⟨"G", "H", 5, 2, false, 1, 1⟩,
   ⟨"H", "I", 8, 4, false, 1, 1⟩,
   ⟨"D", "F", 12, 6, false, 1, 1⟩,
   ⟨"B", "E", 14, 7, false, 1, 1⟩]

/-- The reversed copy of a base link (lines 390-397); `traffic_factor` is not
forwarded, so it takes the default 1. -/
def reverse_link (l : RouteLink) : RouteLink :=
  ⟨l.to_node, l.from_node, l.distance, l.time, l.eco_priority,
   l.emissions_multiplier, 1⟩

/-- `all_links`: each base link followed immediately by its reverse
(lines 384-399). -/
def pune_links : List RouteLink :=
  (pune_base_links.map (fun l => [l, reverse_link l])).flatten

/-- The `fast_paths` table of `_find_fast_route` (lines 421-428). -/
def fast_paths : List ((String × String) × List String) :=
  [(("A", "J"), ["A", "B", "D", "E", "J"]),
   (("A", "H"), ["A", "C", "D", "G", "H"]),
   (("A", "I"), ["A", "B", "D", "G", "H", "I"]),
   (("D", "J"), ["D", "E", "J"]),
   (("B", "J"), ["B", "D", "E", "J"])]

/-- The `eco_paths` table of `_find_eco_route` (lines 457-464). -/
def eco_paths : List ((String × String) × List String) :=
  [(("A", "J"), ["A", "C", "F", "H", "I", "J"]),
   (("A", "H"), ["A", "C", "F", "H"]),
   (("A", "I"), ["A", "C", "F", "H", "I"]),
   (("D", "J"), ["D", "G", "H", "I", "J"]),
   (("B", "J"), ["B", "E", "I", "J"])]

/-- The `rl_paths` table of `_find_rl_optimized_route` (lines 494-501). -/
def rl_paths : List ((String × String) × List String) :=
  [(("A", "J"), ["A", "B", "E", "I", "J"]),
   (("A", "H"), ["A", "B", "D", "F", "H"]),
   (("A", "I"), ["A", "C", "D", "G", "H", "I"]),
   (("D", "J"), ["D", "F", "H", "I", "J"]),
   (("B", "J"), ["B", "D", "G", "H", "I", "J"])]

/-- The `fallback_paths` table of `_find_alternative_routes` (lines 548-558). -/
def fallback_paths : List ((String × String) × List (List String)) :=
  [(("A", "J"), [["A", "C", "D", "E", "J"], ["A", "B", "D", "G", "H", "I", "J"]]),
   (("A", "H"), [["A", "B", "D", "G", "H"], ["A", "C", "E", "I", "H"]])]

/-- Python `dict` lookup on a small literal table with distinct keys. -/
def table_lookup {β : Type} (t : List ((String × String) × β))
    (k : String × String) : Option β :=
  (t.find? (fun p => decide (p.1 = k))).map (fun p => p.2)

/-- `RouteOptimizerService._find_fast_route` (lines 417-451).  On a table hit
the method calls `self._calculate_route_metrics` (line 434), an attribute the
service class does not have, so it raises `AttributeError`; otherwise it falls
back to `find_path` with `alpha = 0.1`. -/
def find_fast_route (s g : String) : Except String (Option RouteResult) :=
  match table_lookup fast_paths (s, g) with
  | some _ => Except.error "AttributeError: _calculate_route_metrics"
  | none => Except.ok (find_path pune_nodes pune_links s g (qnorm 1 10))

/-- `RouteOptimizerService._find_eco_route` (lines 453-487); same
`AttributeError` on a table hit (line 470), fallback `alpha = 2.0`. -/
def find_eco_route (s g : String) : Except String (Option RouteResult) :=
  match table_lookup eco_paths (s, g) with
  | some _ => Except.error "AttributeError: _calculate_route_metrics"
  | none => Except.ok (find_path pune_nodes pune_links s g 2)

/-- `RouteOptimizerService._generate_path_variation` (lines 581-598). -/
def generate_path_variation (original : List String)
    (used : List (List String)) : Option (List String) :=
  if 3 ≤ original.length then
    ["E", "F", "G", "D", "C"].findSome? fun alt =>
      if original.contains alt then none
      else
        let newPath := original.take (original.length / 2) ++ [alt] ++
          original.drop (original.length / 2)
        if used.contains newPath then none else some newPath
  else none

/-- `RouteOptimizerService._find_rl_optimized_route` (lines 489-541).  On a
table hit whose (possibly varied) path survives the `used_paths` check, the
method calls `self._calculate_route_metrics` (line 514) and raises
`AttributeError`; with no table hit, or when no variation is found, it
returns `None`. -/
def find_rl_optimized_route (s g : String) (_alpha : ℚ)
    (used : List (List String)) : Except String (Option RouteResult) :=
  match table_lookup rl_paths (s, g) with
  | none => Except.ok none
  | some p =>
    match (if used.contains p then generate_path_variation p used else some p) with
    | none => Except.ok none
    | some _ => Except.error "AttributeError: _calculate_route_metrics"

/-- `RouteOptimizerService._find_alternative_routes` (lines 543-579).  As soon
as a fallback path passes the `used_paths` check the method calls
`self._calculate_route_metrics` (line 564) and raises `AttributeError`;
otherwise it returns the empty list. -/
def find_alternative_routes (s g : String)
    (used : List (List String)) : Except String (List RouteResult) :=
  match table_lookup fallback_paths (s, g) with
  | none => Except.ok []
  | some ps =>
    if ps.any (fun p => !used.contains p) then
      Except.error "AttributeError: _calculate_route_metrics"
    else Except.ok []

/-- The comparison of the final sort (line 249): `green_points_score`
descending. -/
def green_ge (a b : RouteResult) : Bool :=
  decide (b.green_points_score ≤ a.green_points_score)

/-- Stable insertion into a sorted list: the new element goes after all
existing elements that compare `le` to it. -/
def stable_insert {α : Type} (le : α → α → Bool) (x : α) : List α → List α
  | [] => [x]
  | y :: ys => if le y x then y :: stable_insert le x ys else x :: y :: ys

/-- Stable sort under a total preorder, modelling Python's stable
`list.sort`. -/
def stable_sort {α : Type} (le : α → α → Bool) (l : List α) : List α :=
  l.foldl (fun acc x => stable_insert le x acc) []

/-- The route list assembled by `optimize_routes` (lines 214-243) for a
request outside all predefined tables: the fast strategy's `find_path` fallback
at `alpha = 0.1` (labelled `fast`), then the eco strategy's fallback at
`alpha = 2.0` (labelled `eco`, +20 bonus) unless its path collides with the
fast one; the RL strategy contributes nothing for such requests and the
`used_paths` check keeps the two paths distinct. -/
def fallback_routes (s g : String) : List RouteResult :=
  let r1 : List RouteResult :=
    match find_path pune_nodes pune_links s g (qnorm 1 10) with
    | some r => [{ r with route_type := "fast" }]
    | none => []
  match find_path pune_nodes pune_links s g 2 with
  | some r =>
    if (r1.map (fun x => x.path)).contains r.path then r1
    else r1 ++ [{ r with route_type := "eco",
                         green_points_score := r.green_points_score + 20 }]
  | none => r1

/-- `RouteOptimizerService.optimize_routes` (lines 195-272) on an empty cache:
fast strategy, eco strategy (+20 bonus, dedup against `used_paths`),
RL strategy (+10 bonus, not added to `used_paths`), alternatives when fewer
than 3 routes, truncation to 3, and the stable sort by score.  Exceptions
short-circuit as in Python. -/
def optimize_routes (s g : String) (alpha : ℚ) :
    Except String (List RouteResult) :=
  match find_fast_route s g with
  | Except.error e => Except.error e
  | Except.ok fastO =>
    let r1 : List RouteResult :=
      match fastO with
      | some r => [{ r with route_type := "fast" }]
      | none => []
    match find_eco_route s g with
    | Except.error e => Except.error e
    | Except.ok ecoO =>
      let r2 : List RouteResult :=
        match ecoO with
        | some r =>
          if (r1.map (fun x => x.path)).contains r.path then r1
          else r1 ++ [{ r with route_type := "eco",
                               green_points_score := r.green_points_score + 20 }]
        | none => r1
      match find_rl_optimized_route s g alpha (r2.map (fun x => x.path)) with
      | Except.error e => Except.error e
      | Except.ok rlO =>
        let r3 : List RouteResult :=
          match rlO with
          | some r => r2 ++ [{ r with route_type := "rl-optimized",
                                      green_points_score := r.green_points_score + 10 }]
          | none => r2
        if r3.length < 3 then
          match find_alternative_routes s g (r2.map (fun x => x.path)) with
          | Except.error e => Except.error e
          | Except.ok alts => Except.ok (stable_sort green_ge ((r3 ++ alts).take 3))
        else Except.ok (stable_sort green_ge (r3.take 3))

/-! ### Specification predicates and fixtures -/

/-- What `heappop` guarantees: the empty heap yields nothing, and otherwise a
least element of the heap's multiset is returned and exactly one occurrence of
it is removed.  Any function with this contract is a valid frontier model. -/
def PopSpec (pop : List SearchEntry → Option (SearchEntry × List SearchEntry)) : Prop :=
  (∀ l, pop l = none ↔ l = []) ∧
  ∀ l e rest, pop l = some (e, rest) →
    l.Perm (e :: rest) ∧ ∀ x ∈ l, entryLt x e = false

/-- Some link of the graph goes from `a` to `b`. -/
def LinkedTo (links : List RouteLink) (a b : String) : Prop :=
  ∃ l ∈ links, l.from_node = a ∧ l.to_node = b

/-- Every consecutive pair of `p` is joined by a link of the graph. -/
def LinkedPath (links : List RouteLink) (p : List String) : Prop :=
  List.Chain' (LinkedTo links) p

/-- `p` is a simple path from `s` to `g`: nonempty, starts at `s`, ends at
`g`, repeats no location, and follows links of the graph. -/
def IsSimplePath (links : List RouteLink) (s g : String) (p : List String) : Prop :=
  p.head? = some s ∧ p.getLast? = some g ∧ p.Nodup ∧ LinkedPath links p

/-- Links with non-negative time, traffic factor and emissions multiplier. -/
def NonnegLinks (links : List RouteLink) : Prop :=
  ∀ l ∈ links, 0 ≤ l.time ∧ 0 ≤ l.traffic_factor ∧ 0 ≤ l.emissions_multiplier

/-- Invariant of every frontier entry in a search from `start`: the carried
path is a nonempty duplicate-free chain of graph links from `start` to the
entry's node, every location on it except the last is closed, and the
accumulated `g_score` is non-negative. -/
def GoodEntry (links : List RouteLink) (start : String) (closed : List String)
    (e : SearchEntry) : Prop :=
  e.path ≠ [] ∧ e.path.head? = some start ∧ e.path.getLast? = some e.node ∧
    e.path.Nodup ∧ LinkedPath links e.path ∧
    (∀ x ∈ e.path.dropLast, x ∈ closed) ∧ 0 ≤ e.g

/-- The accumulated combined cost of a path: the sum over traversed links of
`time_cost(link) + alpha * emissions_cost(link)`, where
`time_cost(link) = link.time * link.traffic_factor` (stated in the spec;
the traversed link between consecutive locations is the one `_find_link`
resolves). -/
def path_combined_cost (links : List RouteLink) (alpha : ℚ) : List String → ℚ
  | a :: b :: rest =>
    qadd
      (match find_link links a b with
       | some l => qadd (qmul l.time l.traffic_factor) (qmul alpha (emissions_cost l))
       | none => 0)
      (path_combined_cost links alpha (b :: rest))
  | _ => 0

/-- The four-location example graph of the spec's first example scenario:
A→B(time=5, em_mult=1.0), B→D(5, 1.0), A→C(8, 0.1), C→D(8, 0.1).  The
scenario fixes no distances; they are set to 0 (they influence neither the
search nor emissions). -/
def ex_nodes : List String := ["A", "B", "C", "D"]

/-- Links of the example scenario graph. -/
def ex_links : List RouteLink :=
  [⟨"A", "B", 0, 5, false, 1, 1⟩,
   ⟨"B", "D", 0, 5, false, 1, 1⟩,
   ⟨"A", "C", 0, 8, false, qnorm 1 10, 1⟩,
   ⟨"C", "D", 0, 8, false, qnorm 1 10, 1⟩]

/-- A graph on which the search returns a path that does not minimise the
accumulated combined cost: the A→B link carries a large emissions cost that
the frontier priority forgets once B is expanded. -/
def cex_nodes : List String := ["A", "B", "C", "D"]

/-- Links of the minimality counterexample graph (all attributes
non-negative). -/
def cex_links : List RouteLink :=
  [⟨"A", "B", 1, 10, false, qnorm 9 200, 1⟩,
   ⟨"B", "D", 1, 10, false, 0, 1⟩,
   ⟨"A", "C", 1, 30, false, 0, 1⟩,
   ⟨"C", "D", 1, 30, false, 0, 1⟩]

/-- A location set and a link list violating referential integrity: the links
pass through `"X"`, which is not among the locations. -/
def dangling_nodes : List String := ["A", "B"]

/-- Links referencing the unknown location `"X"`. -/
def dangling_links : List RouteLink :=
  [⟨"A", "X", 1, 1, false, 1, 1⟩,
   ⟨"X", "B", 1, 1, false, 1, 1⟩]

/-- The `valid_nodes` set of `RouteOptimizationRequest.validate_nodes`
(`api_models.py` lines 28-33). -/
def valid_nodes : List String :=
  ["A", "B", "C", "D", "E", "F", "G", "H", "I", "J"]

/-- The request validation of `RouteOptimizationRequest` (`api_models.py`
lines 21-39): alpha within `[0.1, 2.0]` (`Field(ge=0.1, le=2.0)`), start and
end among the valid nodes, start different from end.  `true` iff the request
passes; a `false` request is rejected with a validation error (HTTP 422)
before reaching the service. -/
def validate_request (s g : String) (alpha : ℚ) : Bool :=
  qle (qnorm 1 10) alpha && qle alpha 2 &&
    valid_nodes.contains s && valid_nodes.contains g && !(s == g)

/-- Decidability of link existence. -/
instance (links : List RouteLink) (a b : String) : Decidable (LinkedTo links a b) :=
  inferInstanceAs (Decidable (∃ l ∈ links, l.from_node = a ∧ l.to_node = b))

/-- Decidability of linkedness of a path, by recursion on the path (the
library's `Chain'` instance does not reduce in the kernel). -/
instance instDecLinkedPath (links : List RouteLink) :
    (p : List String) → Decidable (LinkedPath links p)
  | [] => isTrue List.chain'_nil
  | [a] => isTrue (List.chain'_singleton a)
  | a :: b :: rest =>
    match inferInstanceAs (Decidable (LinkedTo links a b)),
        instDecLinkedPath links (b :: rest) with
    | isTrue h1, isTrue h2 => isTrue (List.chain'_cons.mpr ⟨h1, h2⟩)
    | isFalse h1, isTrue _ => isFalse (fun hc => h1 (List.chain'_cons.mp hc).1)
    | isTrue _, isFalse h2 => isFalse (fun hc => h2 (List.chain'_cons.mp hc).2)
    | isFalse h1, isFalse _ => isFalse (fun hc => h1 (List.chain'_cons.mp hc).1)

/-- Decidability of the simple-path predicate. -/
instance (links : List RouteLink) (s g : String) (p : List String) :
    Decidable (IsSimplePath links s g p) :=
  inferInstanceAs (Decidable (p.head? = some s ∧ p.getLast? = some g ∧
    p.Nodup ∧ LinkedPath links p))

/-- Decidable equality of `Except` results. -/
instance {e a : Type} [DecidableEq e] [DecidableEq a] : DecidableEq (Except e a) :=
  fun x y =>
    match x, y with
    | Except.error u, Except.error v =>
      if h : u = v then isTrue (by rw [h])
      else isFalse (by intro hc; cases hc; exact h rfl)
    | Except.ok u, Except.ok v =>
      if h : u = v then isTrue (by rw [h])
      else isFalse (by intro hc; cases hc; exact h rfl)
    | Except.error _, Except.ok _ => isFalse (by intro hc; cases hc)
    | Except.ok _, Except.error _ => isFalse (by intro hc; cases hc)

/-! ### Bridge lemmas: the computable arithmetic agrees with the standard one -/

@[simp] theorem qnorm_eq (n : ℤ) (d : ℕ) : qnorm n d = (n : ℚ) / (d : ℚ) := by
  unfold qnorm
  split
  · rename_i hd
    subst hd
    simp
  · rename_i hd
    have hg : n.natAbs.gcd d ≠ 0 := Nat.gcd_ne_zero_right hd
    have hgd : n.natAbs.gcd d ∣ d := Nat.gcd_dvd_right _ _
    have hgn : ((n.natAbs.gcd d : ℤ)) ∣ n :=
      Int.dvd_natAbs.mp (Int.natCast_dvd_natCast.mpr (Nat.gcd_dvd_left _ _))
    rw [Rat.mk'_eq_divInt, Rat.divInt_eq_div]
    have hgQ : (n.natAbs.gcd d : ℚ) ≠ 0 := by exact_mod_cast hg
    have hdQ : (d : ℚ) ≠ 0 := by exact_mod_cast hd
    have hcast1 : ((n / (n.natAbs.gcd d : ℤ) : ℤ) : ℚ) = (n : ℚ) / (n.natAbs.gcd d : ℚ) :=
      Int.cast_div_charZero hgn
    have hcast2 : (((d / n.natAbs.gcd d : ℕ)) : ℚ) = (d : ℚ) / (n.natAbs.gcd d : ℚ) :=
      Nat.cast_div hgd hgQ
    rw [hcast1, Int.cast_natCast, hcast2]
    field_simp

@[simp] theorem qadd_eq (a b : ℚ) : qadd a b = a + b := by
  rw [qadd, qnorm_eq]
  have ha : ((a.den : ℚ)) ≠ 0 := by exact_mod_cast a.den_nz
  have hb : ((b.den : ℚ)) ≠ 0 := by exact_mod_cast b.den_nz
  conv_rhs => rw [← Rat.num_div_den a, ← Rat.num_div_den b]
  push_cast
  field_simp

@[simp] theorem qmul_eq (a b : ℚ) : qmul a b = a * b := by
  rw [qmul, qnorm_eq]
  have ha : ((a.den : ℚ)) ≠ 0 := by exact_mod_cast a.den_nz
  have hb : ((b.den : ℚ)) ≠ 0 := by exact_mod_cast b.den_nz
  conv_rhs => rw [← Rat.num_div_den a, ← Rat.num_div_den b]
  push_cast
  field_simp

@[simp] theorem qsub_eq (a b : ℚ) : qsub a b = a - b := by
  rw [qsub, qnorm_eq]
  have ha : ((a.den : ℚ)) ≠ 0 := by exact_mod_cast a.den_nz
  have hb : ((b.den : ℚ)) ≠ 0 := by exact_mod_cast b.den_nz
  conv_rhs => rw [← Rat.num_div_den a, ← Rat.num_div_den b]
  push_cast
  field_simp
  ring

@[simp] theorem qdivn_eq (a : ℚ) (n : ℕ) : qdivn a n = a / (n : ℚ) := by
  rw [qdivn, qnorm_eq]
  have ha : ((a.den : ℚ)) ≠ 0 := by exact_mod_cast a.den_nz
  by_cases hn : n = 0
  · subst hn
    simp
  · have hnQ : ((n : ℚ)) ≠ 0 := by exact_mod_cast hn
    conv_rhs => rw [← Rat.num_div_den a]
    push_cast
    field_simp

theorem qlt_iff (a b : ℚ) : qlt a b = true ↔ a < b := by
  rw [qlt, decide_eq_true_iff]
  have ha : (0 : ℚ) < a.den := by exact_mod_cast a.pos
  have hb : (0 : ℚ) < b.den := by exact_mod_cast b.pos
  constructor
  · intro h
    have h' : (a.num : ℚ) * b.den < (b.num : ℚ) * a.den := by exact_mod_cast h
    calc a = a.num / a.den := (Rat.num_div_den a).symm
    _ < b.num / b.den := by rw [div_lt_div_iff₀ ha hb]; linarith
    _ = b := Rat.num_div_den b
  · intro h
    have h' : (a.num : ℚ) / a.den < (b.num : ℚ) / b.den := by
      rwa [Rat.num_div_den a, Rat.num_div_den b]
    rw [div_lt_div_iff₀ ha hb] at h'
    exact_mod_cast h'

theorem qle_iff (a b : ℚ) : qle a b = true ↔ a ≤ b := by
  rw [qle, decide_eq_true_iff]
  have ha : (0 : ℚ) < a.den := by exact_mod_cast a.pos
  have hb : (0 : ℚ) < b.den := by exact_mod_cast b.pos
  constructor
  · intro h
    have h' : (a.num : ℚ) * b.den ≤ (b.num : ℚ) * a.den := by exact_mod_cast h
    calc a = a.num / a.den := (Rat.num_div_den a).symm
    _ ≤ b.num / b.den := by rw [div_le_div_iff₀ ha hb]; linarith
    _ = b := Rat.num_div_den b
  · intro h
    have h' : (a.num : ℚ) / a.den ≤ (b.num : ℚ) / b.den := by
      rwa [Rat.num_div_den a, Rat.num_div_den b]
    rw [div_le_div_iff₀ ha hb] at h'
    exact_mod_cast h'

theorem qeq_iff (a b : ℚ) : qeq a b = true ↔ a = b := by
  rw [qeq, Bool.and_eq_true, decide_eq_true_iff, decide_eq_true_iff]
  constructor
  · intro h
    exact Rat.ext h.1 h.2
  · intro h
    exact ⟨by rw [h], by rw [h]⟩

@[simp] theorem qmin_eq (a b : ℚ) : qmin a b = min a b := by
  rw [qmin, min_def]
  by_cases h : a ≤ b
  · rw [if_pos ((qle_iff a b).mpr h), if_pos h]
  · have hq : qle a b = false := by
      cases hq : qle a b
      · rfl
      · exact absurd ((qle_iff a b).mp hq) h
    rw [hq, if_neg h]
    simp

@[simp] theorem qmax_eq (a b : ℚ) : qmax a b = max a b := by
  rw [qmax, max_def]
  by_cases h : a ≤ b
  · rw [if_pos ((qle_iff a b).mpr h), if_pos h]
  · have hq : qle a b = false := by
      cases hq : qle a b
      · rfl
      · exact absurd ((qle_iff a b).mp hq) h
    rw [hq, if_neg h]
    simp

theorem int_py_eq (x : ℚ) : int_py x = if 0 ≤ x then ⌊x⌋ else ⌈x⌉ := by
  have hd : (0 : ℤ) ≤ (x.den : ℤ) := by positivity
  rw [int_py]
  by_cases hx : 0 ≤ x
  · rw [if_pos hx]
    have hnum : 0 ≤ x.num := Rat.num_nonneg.mpr hx
    rw [Int.tdiv_eq_ediv hnum hd, Rat.floor_def]
  · rw [if_neg hx]
    have hnum : 0 ≤ -x.num := by
      have : x.num < 0 := Rat.num_neg.mpr (lt_of_not_ge hx)
      omega
    have h1 : x.num.tdiv (x.den : ℤ) = -((-x.num).tdiv (x.den : ℤ)) := by
      rw [Int.neg_tdiv]
      ring
    have h2 : (-x.num).tdiv (x.den : ℤ) = (-x.num) / (x.den : ℤ) :=
      Int.tdiv_eq_ediv hnum hd
    have h3 : (⌈x⌉ : ℤ) = -⌊-x⌋ := by
      rw [Int.floor_neg]
      ring
    have h4 : ⌊-x⌋ = -x.num / (x.den : ℤ) := by
      rw [Rat.floor_def, Rat.neg_num, Rat.neg_den]
    rw [h1, h2, h3, h4]

/-! ### The frontier order is a strict linear order -/

theorem qlt_eq_false (a b : ℚ) : qlt a b = false ↔ ¬ a < b := by
  rw [← qlt_iff]
  cases qlt a b <;> simp

theorem qeq_eq_false (a b : ℚ) : qeq a b = false ↔ a ≠ b := by
  constructor
  · intro h heq
    have ht := (qeq_iff a b).mpr heq
    rw [h] at ht
    exact Bool.false_ne_true ht
  · intro h
    cases hq : qeq a b
    · rfl
    · exact absurd ((qeq_iff a b).mp hq) h

theorem lexListLt_irrefl {α : Type} [DecidableEq α] (lt : α → α → Bool)
    (hirr : ∀ a, lt a a = false) : ∀ l, lexListLt lt l l = false
  | [] => rfl
  | a :: as => by
    simp [lexListLt, hirr a, lexListLt_irrefl lt hirr as]

theorem lexListLt_asymm {α : Type} [DecidableEq α] (lt : α → α → Bool)
    (hirr : ∀ a, lt a a = false)
    (hasym : ∀ a b, lt a b = true → lt b a = false) :
    ∀ l1 l2, lexListLt lt l1 l2 = true → lexListLt lt l2 l1 = false
  | [], [], h => by simp [lexListLt] at h
  | [], _ :: _, _ => rfl
  | _ :: _, [], h => by simp [lexListLt] at h
  | a :: as, b :: bs, h => by
    simp only [lexListLt, Bool.or_eq_true, Bool.and_eq_true,
      decide_eq_true_iff] at h
    simp only [lexListLt, Bool.or_eq_false_iff, Bool.and_eq_false_iff]
    rcases h with h | ⟨heq, hrec⟩
    · refine ⟨hasym a b h, ?_⟩
      left
      rw [decide_eq_false_iff_not]
      intro hba
      subst hba
      rw [hirr] at h
      exact Bool.false_ne_true h
    · subst heq
      exact ⟨hirr a, Or.inr (lexListLt_asymm lt hirr hasym as bs hrec)⟩

theorem lexListLt_conn {α : Type} [DecidableEq α] (lt : α → α → Bool)
    (hconn : ∀ a b, lt a b = false → lt b a = false → a = b) :
    ∀ l1 l2, lexListLt lt l1 l2 = false → lexListLt lt l2 l1 = false → l1 = l2
  | [], [], _, _ => rfl
  | [], _ :: _, h, _ => by simp [lexListLt] at h
  | _ :: _, [], _, h => by simp [lexListLt] at h
  | a :: as, b :: bs, h12, h21 => by
    simp only [lexListLt, Bool.or_eq_false_iff, Bool.and_eq_false_iff] at h12 h21
    have hab : a = b := hconn a b h12.1 h21.1
    subst hab
    have h1 : lexListLt lt as bs = false := by
      rcases h12.2 with h | h
      · rw [decide_eq_false_iff_not] at h
        exact absurd rfl h
      · exact h
    have h2 : lexListLt lt bs as = false := by
      rcases h21.2 with h | h
      · rw [decide_eq_false_iff_not] at h
        exact absurd rfl h
      · exact h
    rw [lexListLt_conn lt hconn as bs h1 h2]

theorem lexListLt_negtrans {α : Type} [DecidableEq α] (lt : α → α → Bool)
    (hconn : ∀ a b, lt a b = false → lt b a = false → a = b)
    (hneg : ∀ a b c, lt a b = false → lt b c = false → lt a c = false) :
    ∀ l1 l2 l3, lexListLt lt l1 l2 = false → lexListLt lt l2 l3 = false →
      lexListLt lt l1 l3 = false
  | [], l2, l3, h12, h23 => by
    cases l2 with
    | nil =>
      cases l3 with
      | nil => rfl
      | cons c cs => simp [lexListLt] at h23
    | cons b bs => simp [lexListLt] at h12
  | _ :: _, _, [], _, _ => by simp [lexListLt]
  | a :: as, l2, c :: cs, h12, h23 => by
    cases l2 with
    | nil => simp [lexListLt] at h23
    | cons b bs =>
      simp only [lexListLt, Bool.or_eq_false_iff, Bool.and_eq_false_iff] at h12 h23 ⊢
      refine ⟨hneg a b c h12.1 h23.1, ?_⟩
      by_cases hac : a = c
      · subst hac
        have hba : lt b a = false := h23.1
        have hab : a = b := hconn a b h12.1 hba
        subst hab
        have h1 : lexListLt lt as bs = false := by
          rcases h12.2 with h | h
          · rw [decide_eq_false_iff_not] at h
            exact absurd rfl h
          · exact h
        have h2 : lexListLt lt bs cs = false := by
          rcases h23.2 with h | h
          · rw [decide_eq_false_iff_not] at h
            exact absurd rfl h
          · exact h
        exact Or.inr (lexListLt_negtrans lt hconn hneg as bs cs h1 h2)
      · exact Or.inl (by rw [decide_eq_false_iff_not]; exact hac)

theorem charLt_irrefl (a : Char) : charLt a a = false := by
  simp [charLt]

theorem charLt_conn (a b : Char) (h1 : charLt a b = false) (h2 : charLt b a = false) :
    a = b := by
  simp only [charLt, decide_eq_false_iff_not] at h1 h2
  exact le_antisymm (not_lt.mp h2) (not_lt.mp h1)

theorem charLt_negtrans (a b c : Char) (h1 : charLt a b = false)
    (h2 : charLt b c = false) : charLt a c = false := by
  simp only [charLt, decide_eq_false_iff_not] at h1 h2 ⊢
  intro h
  exact h1 (lt_of_lt_of_le h (not_lt.mp h2))

theorem charLt_asymm (a b : Char) (h : charLt a b = true) : charLt b a = false := by
  simp only [charLt, decide_eq_true_iff] at h
  simp only [charLt, decide_eq_false_iff_not]
  exact lt_asymm h

theorem strLt_irrefl (a : String) : strLt a a = false :=
  lexListLt_irrefl charLt charLt_irrefl a.data

theorem strLt_asymm (a b : String) (h : strLt a b = true) : strLt b a = false :=
  lexListLt_asymm charLt charLt_irrefl charLt_asymm a.data b.data h

theorem strLt_conn (a b : String) (h1 : strLt a b = false) (h2 : strLt b a = false) :
    a = b :=
  String.ext (lexListLt_conn charLt charLt_conn a.data b.data h1 h2)

theorem strLt_negtrans (a b c : String) (h1 : strLt a b = false)
    (h2 : strLt b c = false) : strLt a c = false :=
  lexListLt_negtrans charLt charLt_conn charLt_negtrans a.data b.data c.data h1 h2

theorem pathLt_irrefl (p : List String) : lexListLt strLt p p = false :=
  lexListLt_irrefl strLt strLt_irrefl p

theorem pathLt_asymm (p q : List String) (h : lexListLt strLt p q = true) :
    lexListLt strLt q p = false :=
  lexListLt_asymm strLt strLt_irrefl strLt_asymm p q h

theorem pathLt_conn (p q : List String) (h1 : lexListLt strLt p q = false)
    (h2 : lexListLt strLt q p = false) : p = q :=
  lexListLt_conn strLt strLt_conn p q h1 h2

theorem pathLt_negtrans (p q r : List String) (h1 : lexListLt strLt p q = false)
    (h2 : lexListLt strLt q r = false) : lexListLt strLt p r = false :=
  lexListLt_negtrans strLt strLt_conn strLt_negtrans p q r h1 h2

theorem entryLt_eq_true (x y : SearchEntry) : entryLt x y = true ↔
    x.f < y.f ∨ (x.f = y.f ∧ (x.g < y.g ∨ (x.g = y.g ∧
      (strLt x.node y.node = true ∨
        (x.node = y.node ∧ lexListLt strLt x.path y.path = true))))) := by
  simp only [entryLt, Bool.or_eq_true, Bool.and_eq_true, qlt_iff, qeq_iff,
    decide_eq_true_iff]

theorem entryLt_eq_false (x y : SearchEntry) : entryLt x y = false ↔
    ¬ (x.f < y.f ∨ (x.f = y.f ∧ (x.g < y.g ∨ (x.g = y.g ∧
      (strLt x.node y.node = true ∨
        (x.node = y.node ∧ lexListLt strLt x.path y.path = true)))))) := by
  rw [← entryLt_eq_true, Bool.eq_false_iff]

theorem entryLt_irrefl (x : SearchEntry) : entryLt x x = false := by
  rw [entryLt_eq_false]
  intro h
  rcases h with h | ⟨-, h⟩
  · exact lt_irrefl _ h
  rcases h with h | ⟨-, h⟩
  · exact lt_irrefl _ h
  rcases h with h | ⟨-, h⟩
  · rw [strLt_irrefl] at h
    exact Bool.false_ne_true h
  · rw [pathLt_irrefl] at h
    exact Bool.false_ne_true h

theorem entryLt_conn (x y : SearchEntry) (h1 : entryLt x y = false)
    (h2 : entryLt y x = false) : x = y := by
  rw [entryLt_eq_false] at h1 h2
  push_neg at h1 h2
  have hf : x.f = y.f := le_antisymm h2.1 h1.1
  have h1' := h1.2 hf
  have h2' := h2.2 hf.symm
  have hg : x.g = y.g := le_antisymm h2'.1 h1'.1
  have h1'' := h1'.2 hg
  have h2'' := h2'.2 hg.symm
  have hsx : strLt x.node y.node = false := Bool.eq_false_iff.mpr h1''.1
  have hsy : strLt y.node x.node = false := Bool.eq_false_iff.mpr h2''.1
  have hn : x.node = y.node := strLt_conn _ _ hsx hsy
  have hpx : lexListLt strLt x.path y.path = false :=
    Bool.eq_false_iff.mpr (h1''.2 hn)
  have hpy : lexListLt strLt y.path x.path = false :=
    Bool.eq_false_iff.mpr (h2''.2 hn.symm)
  have hp : x.path = y.path := pathLt_conn _ _ hpx hpy
  cases x
  cases y
  simp_all

theorem entryLt_negtrans (x y z : SearchEntry) (h1 : entryLt x y = false)
    (h2 : entryLt y z = false) : entryLt x z = false := by
  rw [entryLt_eq_false] at h1 h2 ⊢
  push_neg at h1 h2
  intro hcon
  have hfyx : y.f ≤ x.f := h1.1
  have hfzy : z.f ≤ y.f := h2.1
  rcases hcon with h | ⟨hf, hcon⟩
  · exact absurd h (not_lt.mpr (le_trans hfzy hfyx))
  have hfy : x.f = y.f := le_antisymm (hf ▸ hfzy) hfyx
  have h1' := h1.2 hfy
  have h2' := h2.2 (hfy.symm.trans hf)
  have hgyx : y.g ≤ x.g := h1'.1
  have hgzy : z.g ≤ y.g := h2'.1
  rcases hcon with h | ⟨hg, hcon⟩
  · exact absurd h (not_lt.mpr (le_trans hgzy hgyx))
  have hgy : x.g = y.g := le_antisymm (hg ▸ hgzy) hgyx
  have h1'' := h1'.2 hgy
  have h2'' := h2'.2 (hgy.symm.trans hg)
  have hsxy : strLt x.node y.node = false := Bool.eq_false_iff.mpr h1''.1
  have hsyz : strLt y.node z.node = false := Bool.eq_false_iff.mpr h2''.1
  rcases hcon with h | ⟨hn, hcon⟩
  · rw [strLt_negtrans _ _ _ hsxy hsyz] at h
    exact Bool.false_ne_true h
  have hny : x.node = y.node := strLt_conn _ _ hsxy (hn ▸ hsyz)
  have hpxy : lexListLt strLt x.path y.path = false :=
    Bool.eq_false_iff.mpr (h1''.2 hny)
  have hpyz : lexListLt strLt y.path z.path = false :=
    Bool.eq_false_iff.mpr (h2''.2 (hny.symm.trans hn))
  rw [pathLt_negtrans _ _ _ hpxy hpyz] at hcon
  exact Bool.false_ne_true hcon

theorem entryLt_asymm (x y : SearchEntry) (h : entryLt x y = true) :
    entryLt y x = false := by
  cases hyx : entryLt y x
  · rfl
  · exfalso
    rw [entryLt_eq_true] at h hyx
    rcases h with h | ⟨hf, h⟩ <;> rcases hyx with h' | ⟨hf', h'⟩
    · exact lt_asymm h h'
    · exact absurd h (hf' ▸ lt_irrefl _)
    · exact absurd h' (hf ▸ lt_irrefl _)
    rcases h with h | ⟨hg, h⟩ <;> rcases h' with h' | ⟨hg', h'⟩
    · exact lt_asymm h h'
    · exact absurd h (hg' ▸ lt_irrefl _)
    · exact absurd h' (hg ▸ lt_irrefl _)
    rcases h with h | ⟨hn, h⟩ <;> rcases h' with h' | ⟨hn', h'⟩
    · rw [strLt_asymm _ _ h] at h'
      exact Bool.false_ne_true h'
    · rw [hn', strLt_irrefl] at h
      exact Bool.false_ne_true h
    · rw [hn, strLt_irrefl] at h'
      exact Bool.false_ne_true h'
    · rw [pathLt_asymm _ _ h] at h'
      exact Bool.false_ne_true h'

/-! ### `popMin` satisfies the heap-pop contract -/

theorem popMin_eq_none_iff : ∀ l : List SearchEntry, popMin l = none ↔ l = []
  | [] => by simp [popMin]
  | e :: es => by
    simp only [popMin]
    cases h : popMin es with
    | none => simp
    | some p =>
      cases p with
      | mk m rest =>
        by_cases hlt : entryLt m e = true
        · simp [hlt]
        · simp [Bool.eq_false_iff.mpr hlt]

theorem popMin_perm : ∀ l e rest, popMin l = some (e, rest) → l.Perm (e :: rest)
  | [], e, rest, h => by simp [popMin] at h
  | a :: as, e, rest, h => by
    simp only [popMin] at h
    cases has : popMin as with
    | none =>
      simp only [has] at h
      cases h
      exact List.Perm.refl _
    | some p =>
      cases p with
      | mk m rest' =>
        simp only [has] at h
        by_cases hlt : entryLt m a = true
        · rw [if_pos hlt] at h
          cases h
          exact ((popMin_perm as _ _ has).cons a).trans (List.Perm.swap _ a _)
        · rw [if_neg hlt] at h
          cases h
          exact List.Perm.refl _

theorem popMin_min : ∀ l e rest, popMin l = some (e, rest) →
    ∀ x ∈ l, entryLt x e = false
  | [], e, rest, h => by simp [popMin] at h
  | a :: as, e, rest, h => by
    simp only [popMin] at h
    cases has : popMin as with
    | none =>
      simp only [has] at h
      cases h
      have hnil : as = [] := (popMin_eq_none_iff as).mp has
      subst hnil
      intro x hx
      rcases List.mem_singleton.mp hx with rfl
      exact entryLt_irrefl x
    | some p =>
      cases p with
      | mk m rest' =>
        simp only [has] at h
        have hmin := popMin_min as m rest' has
        by_cases hlt : entryLt m a = true
        · rw [if_pos hlt] at h
          cases h
          intro x hx
          rcases List.mem_cons.mp hx with rfl | hx
          · exact entryLt_asymm _ _ hlt
          · exact hmin x hx
        · rw [if_neg hlt] at h
          cases h
          intro x hx
          rcases List.mem_cons.mp hx with rfl | hx
          · exact entryLt_irrefl x
          · exact entryLt_negtrans x m _ (hmin x hx) (Bool.eq_false_iff.mpr hlt)

/-- The concrete frontier model is a valid `heappop`. -/
theorem popMin_popSpec : PopSpec popMin :=
  ⟨popMin_eq_none_iff, fun l e rest h => ⟨popMin_perm l e rest h, popMin_min l e rest h⟩⟩

/-! ### Tie-break determinism: any valid heap-pop yields the same search -/

theorem popSpec_agree {pop1 pop2 : List SearchEntry → Option (SearchEntry × List SearchEntry)}
    (h1 : PopSpec pop1) (h2 : PopSpec pop2) {l1 l2 : List SearchEntry}
    (hperm : l1.Perm l2) :
    (pop1 l1 = none ∧ pop2 l2 = none) ∨
      ∃ e r1 r2, pop1 l1 = some (e, r1) ∧ pop2 l2 = some (e, r2) ∧ r1.Perm r2 := by
  cases hp1 : pop1 l1 with
  | none =>
    left
    have : l1 = [] := (h1.1 l1).mp hp1
    subst this
    have : l2 = [] := hperm.symm.eq_nil
    subst this
    exact ⟨rfl, (h2.1 []).mpr rfl⟩
  | some p1 =>
    cases p1 with
    | mk e1 r1 =>
      right
      cases hp2 : pop2 l2 with
      | none =>
        exfalso
        have : l2 = [] := (h2.1 l2).mp hp2
        subst this
        have : l1 = [] := hperm.eq_nil
        subst this
        rw [(h1.1 []).mpr rfl] at hp1
        cases hp1
      | some p2 =>
        cases p2 with
        | mk e2 r2 =>
          obtain ⟨hperm1, hmin1⟩ := h1.2 l1 e1 r1 hp1
          obtain ⟨hperm2, hmin2⟩ := h2.2 l2 e2 r2 hp2
          have he1 : e1 ∈ l2 := hperm.mem_iff.mp (hperm1.mem_iff.mpr (List.mem_cons_self _ _))
          have he2 : e2 ∈ l1 := hperm.mem_iff.mpr (hperm2.mem_iff.mpr (List.mem_cons_self _ _))
          have heq : e1 = e2 := entryLt_conn e1 e2 (hmin2 e1 he1) (hmin1 e2 he2)
          subst heq
          refine ⟨e1, r1, r2, rfl, rfl, ?_⟩
          have : (e1 :: r1).Perm (e1 :: r2) :=
            hperm1.symm.trans (hperm.trans hperm2)
          exact this.cons_inv

theorem find_path_aux_with_congr
    {pop1 pop2 : List SearchEntry → Option (SearchEntry × List SearchEntry)}
    (h1 : PopSpec pop1) (h2 : PopSpec pop2)
    (links : List RouteLink) (goal : String) (alpha : ℚ) :
    ∀ fuel l1 l2 closed, l1.Perm l2 →
      find_path_aux_with pop1 links goal alpha fuel l1 closed =
        find_path_aux_with pop2 links goal alpha fuel l2 closed := by
  intro fuel
  induction fuel with
  | zero => intro l1 l2 closed _; rfl
  | succ fuel ih =>
    intro l1 l2 closed hperm
    rcases popSpec_agree h1 h2 hperm with ⟨hn1, hn2⟩ | ⟨e, r1, r2, hp1, hp2, hr⟩
    · simp only [find_path_aux_with, hn1, hn2]
    · simp only [find_path_aux_with, hp1, hp2]
      by_cases hg : (e.node == goal) = true
      · rw [if_pos hg, if_pos hg]
      · rw [if_neg hg, if_neg hg]
        by_cases hc : closed.contains e.node = true
        · rw [if_pos hc, if_pos hc]
          exact ih r1 r2 closed hr
        · rw [if_neg hc, if_neg hc]
          exact ih _ _ _ (hr.append_right _)

/-! ### Soundness of the search: returned paths are simple linked paths -/

theorem contains_iff_mem {α : Type} [BEq α] [LawfulBEq α] (l : List α) (a : α) :
    l.contains a = true ↔ a ∈ l :=
  List.elem_iff

theorem goodEntry_mono {links : List RouteLink} {start : String}
    {c1 c2 : List String} (hsub : ∀ x ∈ c1, x ∈ c2) {e : SearchEntry}
    (h : GoodEntry links start c1 e) : GoodEntry links start c2 e :=
  ⟨h.1, h.2.1, h.2.2.1, h.2.2.2.1, h.2.2.2.2.1,
    fun x hx => hsub x (h.2.2.2.2.2.1 x hx), h.2.2.2.2.2.2⟩

theorem mem_path_mem_closed {links : List RouteLink} {start : String}
    {closed : List String} {e : SearchEntry}
    (h : GoodEntry links start closed e) {y : String} (hy : y ∈ e.path) :
    y ∈ e.node :: closed := by
  have hne : e.path ≠ [] := h.1
  have hsplit := List.dropLast_append_getLast hne
  rw [← hsplit] at hy
  rcases List.mem_append.mp hy with hy | hy
  · exact List.mem_cons_of_mem _ (h.2.2.2.2.2.1 y hy)
  · have hlast : e.path.getLast hne = e.node := by
      have := List.getLast?_eq_getLast e.path hne
      rw [h.2.2.1] at this
      exact (Option.some_injective _ this).symm
    rcases List.mem_singleton.mp hy with rfl
    rw [hlast]
    exact List.mem_cons_self _ _

theorem expand_goodEntry {links : List RouteLink} {start : String}
    {closed : List String} {alpha : ℚ} {e : SearchEntry}
    (hnn : NonnegLinks links) (he : GoodEntry links start closed e) :
    ∀ x ∈ expand links alpha e (e.node :: closed),
      GoodEntry links start (e.node :: closed) x := by
  intro x hx
  rw [expand, List.mem_filterMap] at hx
  obtain ⟨link, hlink, hfx⟩ := hx
  rw [build_graph, List.mem_filter] at hlink
  obtain ⟨hlinks, hfrom⟩ := hlink
  have hfrom' : link.from_node = e.node := by
    rwa [beq_iff_eq] at hfrom
  by_cases hcont : ((e.node :: closed).contains link.to_node) = true
  · rw [if_pos hcont] at hfx
    cases hfx
  · rw [if_neg hcont] at hfx
    have hw : link.to_node ∉ (e.node :: closed) := by
      intro hmem
      exact hcont ((contains_iff_mem _ _).mpr hmem)
    cases hfx
    have hwe : link.to_node ∉ e.path := fun hmem =>
      hw (mem_path_mem_closed he hmem)
    have hgood : 0 ≤ e.g + link.time * link.traffic_factor := by
      have h1 := (hnn link hlinks).1
      have h2 := (hnn link hlinks).2.1
      have := he.2.2.2.2.2.2
      positivity
    refine ⟨by simp, ?_, ?_, ?_, ?_, ?_, ?_⟩
    · show (e.path ++ [link.to_node]).head? = some start
      rw [List.head?_append, he.2.1]
      rfl
    · show (e.path ++ [link.to_node]).getLast? = some link.to_node
      exact List.getLast?_concat _
    · show (e.path ++ [link.to_node]).Nodup
      rw [List.nodup_append]
      exact ⟨he.2.2.2.1, List.nodup_singleton _,
        fun y hy hy' => hwe (by rwa [List.mem_singleton.mp hy'] at hy)⟩
    · show LinkedPath links (e.path ++ [link.to_node])
      rw [LinkedPath, List.chain'_append]
      refine ⟨he.2.2.2.2.1, List.chain'_singleton _, ?_⟩
      intro y hy z hz
      rw [he.2.2.1] at hy
      cases hy
      cases hz
      exact ⟨link, hlinks, hfrom', rfl⟩
    · show ∀ x ∈ (e.path ++ [link.to_node]).dropLast, x ∈ e.node :: closed
      rw [List.dropLast_concat]
      intro y hy
      exact mem_path_mem_closed he hy
    · show (0 : ℚ) ≤ qadd e.g (qmul link.time link.traffic_factor)
      rw [qadd_eq, qmul_eq]
      exact hgood

theorem find_path_aux_sound
    {pop : List SearchEntry → Option (SearchEntry × List SearchEntry)}
    (hpop : PopSpec pop) (links : List RouteLink) (start goal : String)
    (alpha : ℚ) (hnn : NonnegLinks links) :
    ∀ fuel open_set closed_set,
      (∀ e ∈ open_set, GoodEntry links start closed_set e) →
      ∀ p gq,
        find_path_aux_with pop links goal alpha fuel open_set closed_set = some (p, gq) →
        p.head? = some start ∧ p.getLast? = some goal ∧ p.Nodup ∧
          LinkedPath links p ∧ 0 ≤ gq := by
  intro fuel
  induction fuel with
  | zero => intro _ _ _ p gq h; cases h
  | succ fuel ih =>
    intro open_set closed_set hinv p gq h
    rw [find_path_aux_with] at h
    cases hp : pop open_set with
    | none => rw [hp] at h; cases h
    | some pr =>
      cases pr with
      | mk e rest =>
        simp only [hp] at h
        obtain ⟨hperm, -⟩ := hpop.2 open_set e rest hp
        have hmem_open : ∀ x ∈ rest, x ∈ open_set := fun x hx =>
          hperm.mem_iff.mpr (List.mem_cons_of_mem _ hx)
        have he : GoodEntry links start closed_set e :=
          hinv e (hperm.mem_iff.mpr (List.mem_cons_self _ _))
        by_cases hg : (e.node == goal) = true
        · rw [if_pos hg] at h
          cases h
          have hgoal : e.node = goal := by rwa [beq_iff_eq] at hg
          exact ⟨he.2.1, hgoal ▸ he.2.2.1, he.2.2.2.1, he.2.2.2.2.1,
            he.2.2.2.2.2.2⟩
        · rw [if_neg hg] at h
          by_cases hc : (closed_set.contains e.node) = true
          · rw [if_pos hc] at h
            exact ih rest closed_set (fun x hx => hinv x (hmem_open x hx)) p gq h
          · rw [if_neg hc] at h
            refine ih _ _ ?_ p gq h
            intro x hx
            rcases List.mem_append.mp hx with hx | hx
            · exact goodEntry_mono (fun y hy => List.mem_cons_of_mem _ hy)
                (hinv x (hmem_open x hx))
            · exact expand_goodEntry hnn he x hx

theorem find_path_sound
    {pop : List SearchEntry → Option (SearchEntry × List SearchEntry)}
    (hpop : PopSpec pop) {nodes : List String} {links : List RouteLink}
    {start goal : String} {alpha : ℚ} (hnn : NonnegLinks links)
    {r : RouteResult}
    (h : find_path_with pop nodes links start goal alpha = some r) :
    IsSimplePath links start goal r.path ∧ 0 ≤ r.total_time := by
  rw [find_path_with] at h
  by_cases hguard : (nodes.contains start && nodes.contains goal) = true
  · rw [if_pos hguard] at h
    cases haux : find_path_aux_with pop links goal alpha (search_fuel links start)
        [⟨0, 0, start, [start]⟩] [] with
    | none => simp only [haux] at h; cases h
    | some pr =>
      cases pr with
      | mk p gq =>
        simp only [haux] at h
        have hstart : GoodEntry links start ([] : List String) ⟨0, 0, start, [start]⟩ := by
          refine ⟨by simp, rfl, rfl, List.nodup_singleton _,
            List.chain'_singleton _, ?_, le_refl 0⟩
          intro x hx
          simp at hx
        have hsound := find_path_aux_sound hpop links start goal alpha hnn
          (search_fuel links start) [⟨0, 0, start, [start]⟩] []
          (by
            intro e hee
            rcases List.mem_singleton.mp hee with rfl
            exact hstart) p gq haux
        cases h
        exact ⟨⟨hsound.1, hsound.2.1, hsound.2.2.1, hsound.2.2.2.1⟩,
          hsound.2.2.2.2⟩
  · rw [if_neg hguard] at h
    cases h

/-! ### Bounds on metrics and green points -/

theorem calculate_route_metrics_nonneg (links : List RouteLink)
    (hd : ∀ l ∈ links, 0 ≤ l.distance)
    (he : ∀ l ∈ links, 0 ≤ l.time ∧ 0 ≤ l.emissions_multiplier) :
    ∀ p, 0 ≤ (calculate_route_metrics links p).1 ∧
      0 ≤ (calculate_route_metrics links p).2
  | [] => by simp [calculate_route_metrics]
  | [a] => by simp [calculate_route_metrics]
  | a :: b :: rest => by
    have ihm := calculate_route_metrics_nonneg links hd he (b :: rest)
    rw [calculate_route_metrics]
    cases hfl : find_link links a b with
    | none => simpa using ihm
    | some l =>
      have hmem : l ∈ links := List.mem_of_find?_eq_some hfl
      have h1 := hd l hmem
      have h2 := (he l hmem).1
      have h3 := (he l hmem).2
      constructor
      · show 0 ≤ qadd (calculate_route_metrics links (b :: rest)).1 l.distance
        rw [qadd_eq]
        exact add_nonneg ihm.1 h1
      · show 0 ≤ qadd (calculate_route_metrics links (b :: rest)).2
          (qmul (qmul l.time 100) l.emissions_multiplier)
        rw [qadd_eq, qmul_eq, qmul_eq]
        have : (0 : ℚ) ≤ l.time * 100 * l.emissions_multiplier := by positivity
        exact add_nonneg ihm.2 this

theorem int_py_le_of_le_nat (x : ℚ) (n : ℕ) (h : x ≤ n) : int_py x ≤ n := by
  rw [int_py_eq]
  by_cases hx : 0 ≤ x
  · rw [if_pos hx]
    calc ⌊x⌋ ≤ ⌊(n : ℚ)⌋ := Int.floor_le_floor h
    _ = n := by simp
  · rw [if_neg hx]
    have hx0 : x ≤ 0 := le_of_lt (lt_of_not_ge hx)
    calc ⌈x⌉ ≤ ⌈(0 : ℚ)⌉ := Int.ceil_le_ceil hx0
    _ = 0 := by simp
    _ ≤ n := Int.ofNat_nonneg n

theorem calculate_green_points_bounds (emissions t : ℚ)
    (hem : 0 ≤ emissions) (ht : 0 ≤ t) :
    0 ≤ calculate_green_points emissions t ∧
      calculate_green_points emissions t ≤ 100 := by
  rw [calculate_green_points]
  constructor
  · exact le_max_left _ _
  · have harg : qsub (qsub 100 (qmin 50 (qdivn emissions 100)))
        (qmin 30 (qdivn t 10)) ≤ (100 : ℚ) := by
      rw [qsub_eq, qsub_eq, qmin_eq, qmin_eq, qdivn_eq, qdivn_eq]
      have h1 : (0 : ℚ) ≤ min 50 (emissions / 100) := le_min (by norm_num) (by positivity)
      have h2 : (0 : ℚ) ≤ min 30 (t / 10) := le_min (by norm_num) (by positivity)
      linarith
    have := int_py_le_of_le_nat _ 100 harg
    rw [max_le_iff]
    constructor
    · norm_num
    · exact_mod_cast this

/-- Full bounds for a `find_path` result on a graph with non-negative
attributes. -/
theorem find_path_bounds
    {pop : List SearchEntry → Option (SearchEntry × List SearchEntry)}
    (hpop : PopSpec pop) {nodes : List String} {links : List RouteLink}
    {start goal : String} {alpha : ℚ} (hnn : NonnegLinks links)
    (hd : ∀ l ∈ links, 0 ≤ l.distance) {r : RouteResult}
    (h : find_path_with pop nodes links start goal alpha = some r) :
    0 ≤ r.total_time ∧ 0 ≤ r.total_distance ∧ 0 ≤ r.total_emissions ∧
      0 ≤ r.green_points_score ∧ r.green_points_score ≤ 100 := by
  have hmetr := calculate_route_metrics_nonneg links hd
    (fun l hl => ⟨(hnn l hl).1, (hnn l hl).2.2⟩)
  rw [find_path_with] at h
  by_cases hguard : (nodes.contains start && nodes.contains goal) = true
  · rw [if_pos hguard] at h
    cases haux : find_path_aux_with pop links goal alpha (search_fuel links start)
        [⟨0, 0, start, [start]⟩] [] with
    | none => simp only [haux] at h; cases h
    | some pr =>
      cases pr with
      | mk p gq =>
        simp only [haux] at h
        have hstart : GoodEntry links start ([] : List String) ⟨0, 0, start, [start]⟩ := by
          refine ⟨by simp, rfl, rfl, List.nodup_singleton _,
            List.chain'_singleton _, ?_, le_refl 0⟩
          intro x hx
          simp at hx
        have hsound := find_path_aux_sound hpop links start goal alpha hnn
          (search_fuel links start) [⟨0, 0, start, [start]⟩] []
          (by
            intro e hee
            rcases List.mem_singleton.mp hee with rfl
            exact hstart) p gq haux
        have hgb := calculate_green_points_bounds
          (calculate_route_metrics links p).2 gq (hmetr p).2 hsound.2.2.2.2
        cases h
        exact ⟨hsound.2.2.2.2, (hmetr p).1, (hmetr p).2, hgb.1, hgb.2⟩
  · rw [if_neg hguard] at h
    cases h

/-! ### Shape of `optimize_routes` results -/

theorem stable_insert_perm {α : Type} (le : α → α → Bool) (x : α) :
    ∀ l : List α, (stable_insert le x l).Perm (x :: l)
  | [] => List.Perm.refl _
  | y :: ys => by
    rw [stable_insert]
    by_cases h : le y x = true
    · rw [if_pos h]
      exact ((stable_insert_perm le x ys).cons y).trans (List.Perm.swap x y ys)
    · rw [if_neg h]

theorem stable_sort_perm {α : Type} (le : α → α → Bool) (l : List α) :
    (stable_sort le l).Perm l := by
  suffices h : ∀ (l acc : List α),
      (l.foldl (fun acc x => stable_insert le x acc) acc).Perm (acc ++ l) by
    simpa using h l []
  intro l
  induction l with
  | nil => intro acc; simp
  | cons x xs ih =>
    intro acc
    rw [List.foldl_cons]
    refine (ih (stable_insert le x acc)).trans ?_
    refine ((stable_insert_perm le x acc).append_right xs).trans ?_
    exact List.perm_middle.symm

theorem lookup_none_iff {β : Type} (t : List ((String × String) × β))
    (k : String × String) :
    table_lookup t k = none ↔ ∀ x ∈ t, x.1 ≠ k := by
  rw [table_lookup, Option.map_eq_none', List.find?_eq_none]
  simp

theorem lookup_none_keys {β γ : Type} {t1 : List ((String × String) × β)}
    {t2 : List ((String × String) × γ)}
    (hk : ∀ x ∈ t2.map Prod.fst, x ∈ t1.map Prod.fst) (k : String × String)
    (h : table_lookup t1 k = none) : table_lookup t2 k = none := by
  rw [lookup_none_iff] at h ⊢
  intro x hx heq
  have hx1 : x.1 ∈ t1.map Prod.fst := hk x.1 (List.mem_map_of_mem _ hx)
  obtain ⟨y, hy, hyx⟩ := List.mem_map.mp hx1
  exact h y hy (hyx.trans heq)

theorem optimize_routes_ok_eq {s g : String} {alpha : ℚ} {l : List RouteResult}
    (h : optimize_routes s g alpha = Except.ok l) :
    table_lookup fast_paths (s, g) = none ∧
      l = stable_sort green_ge ((fallback_routes s g).take 3) := by
  rw [optimize_routes] at h
  cases hfast : table_lookup fast_paths (s, g) with
  | some p =>
    rw [find_fast_route, hfast] at h
    simp at h
  | none =>
    have heco : table_lookup eco_paths (s, g) = none :=
      lookup_none_keys (by decide) _ hfast
    have hrl : table_lookup rl_paths (s, g) = none :=
      lookup_none_keys (by decide) _ hfast
    have hfb : table_lookup fallback_paths (s, g) = none :=
      lookup_none_keys (by decide) _ hfast
    rw [find_fast_route, hfast] at h
    rw [find_eco_route, heco] at h
    simp only at h
    rw [find_rl_optimized_route, hrl] at h
    simp only at h
    rw [find_alternative_routes, hfb] at h
    refine ⟨rfl, ?_⟩
    split at h
    · simp only [List.append_nil] at h
      cases h
      rfl
    · cases h
      rfl

theorem nonnegLinks_of_check (links : List RouteLink)
    (h : (links.all fun l => qle 0 l.time && qle 0 l.traffic_factor &&
      qle 0 l.emissions_multiplier) = true) : NonnegLinks links := by
  intro l hl
  have := List.all_eq_true.mp h l hl
  simp only [Bool.and_eq_true] at this
  exact ⟨(qle_iff _ _).mp this.1.1, (qle_iff _ _).mp this.1.2,
    (qle_iff _ _).mp this.2⟩

theorem nonnegDist_of_check (links : List RouteLink)
    (h : (links.all fun l => qle 0 l.distance) = true) :
    ∀ l ∈ links, 0 ≤ l.distance := by
  intro l hl
  exact (qle_iff _ _).mp (List.all_eq_true.mp h l hl)

theorem pune_links_nonneg : NonnegLinks pune_links :=
  nonnegLinks_of_check _ (by decide)

theorem pune_links_dist_nonneg : ∀ l ∈ pune_links, 0 ≤ l.distance :=
  nonnegDist_of_check _ (by decide)

theorem fallback_routes_pairwise (s g : String) :
    (fallback_routes s g).Pairwise (fun a b => a.path ≠ b.path) := by
  rw [fallback_routes]
  rcases hf : find_path pune_nodes pune_links s g (qnorm 1 10) with - | rf <;>
    rcases he : find_path pune_nodes pune_links s g 2 with - | re <;>
      simp only [hf, he]
  · simp
  · simp
  · simp
  · split
    · simp
    · rename_i hcont
      have hne : rf.path ≠ re.path := by
        intro heq
        apply hcont
        rw [contains_iff_mem]
        simp [heq]
      simp [hne]

theorem fallback_routes_mem {s g : String} {r : RouteResult}
    (h : r ∈ fallback_routes s g) :
    ∃ r0 : RouteResult,
      (find_path pune_nodes pune_links s g (qnorm 1 10) = some r0 ∨
        find_path pune_nodes pune_links s g 2 = some r0) ∧
      r.path = r0.path ∧ r.total_time = r0.total_time ∧
      r.total_distance = r0.total_distance ∧
      r.total_emissions = r0.total_emissions ∧
      (r.green_points_score = r0.green_points_score ∨
        r.green_points_score = r0.green_points_score + 20) := by
  rw [fallback_routes] at h
  rcases hf : find_path pune_nodes pune_links s g (qnorm 1 10) with - | rf <;>
    rcases he : find_path pune_nodes pune_links s g 2 with - | re <;>
      simp only [hf, he] at h
  · simp at h
  · rcases List.mem_singleton.mp h with rfl
    exact ⟨re, Or.inr rfl, rfl, rfl, rfl, rfl, Or.inr rfl⟩
  · rcases List.mem_singleton.mp h with rfl
    exact ⟨rf, Or.inl rfl, rfl, rfl, rfl, rfl, Or.inl rfl⟩
  · split at h
    · rcases List.mem_singleton.mp h with rfl
      exact ⟨rf, Or.inl rfl, rfl, rfl, rfl, rfl, Or.inl rfl⟩
    · rcases List.mem_append.mp h with hm | hm
      · rcases List.mem_singleton.mp hm with rfl
        exact ⟨rf, Or.inl rfl, rfl, rfl, rfl, rfl, Or.inl rfl⟩
      · rcases List.mem_singleton.mp hm with rfl
        exact ⟨re, Or.inr rfl, rfl, rfl, rfl, rfl, Or.inr rfl⟩

/-! ### Claims C2, C3, C4, C10 about `optimize_routes` -/

/-- C10: for every input `(start, end, alpha)`, a route list returned by
`optimize_routes` contains at most 3 `RouteResult`s: the candidate list is
truncated to its first three entries before sorting and returning, no matter
how many candidates the strategies produce. -/
theorem C10_at_most_three_routes (s g : String) (alpha : ℚ)
    (l : List RouteResult) (h : optimize_routes s g alpha = Except.ok l) :
    l.length ≤ 3 := by
  obtain ⟨-, hl⟩ := optimize_routes_ok_eq h
  rw [hl, (stable_sort_perm green_ge _).length_eq, List.length_take]
  exact min_le_left _ _

/-- Witness for C10 at the concrete request `("B", "I", 1)`. -/
theorem C10_witness :
    ([⟨["B", "D", "E", "I"], 12, 25, 900, 89, "fast"⟩] : List RouteResult).length ≤ 3 :=
  C10_at_most_three_routes "B" "I" 1 _ (by decide)

/-- C2: for every request `(start, end, alpha)` such that the graph contains
at least two structurally distinct simple paths from start to end, a route
list returned by `optimize_routes` contains no two `RouteResult`s whose path
is the same ordered location sequence. -/
theorem C2_distinct_paths (s g : String) (alpha : ℚ) (l : List RouteResult)
    (_hpaths : ∃ p1 p2 : List String, IsSimplePath pune_links s g p1 ∧
      IsSimplePath pune_links s g p2 ∧ p1 ≠ p2)
    (h : optimize_routes s g alpha = Except.ok l) :
    l.Pairwise (fun a b => a.path ≠ b.path) := by
  obtain ⟨-, hl⟩ := optimize_routes_ok_eq h
  rw [hl]
  have hsym : ∀ {a b : RouteResult}, a.path ≠ b.path → b.path ≠ a.path :=
    fun hab => hab.symm
  refine ((stable_sort_perm green_ge _).pairwise_iff hsym).mpr ?_
  exact List.Pairwise.sublist (List.take_sublist _ _) (fallback_routes_pairwise s g)

/-- Witness for C2 at the concrete request `("B", "I", 1)`, which admits the
two distinct simple paths B-D-E-I and B-E-I. -/
theorem C2_witness :
    ([⟨["B", "D", "E", "I"], 12, 25, 900, 89, "fast"⟩] : List RouteResult).Pairwise
      (fun a b => a.path ≠ b.path) :=
  C2_distinct_paths "B" "I" 1 _
    ⟨["B", "D", "E", "I"], ["B", "E", "I"], by decide, by decide, by decide⟩
    (by decide)

/-- C3: every `RouteResult` returned by `optimize_routes` has a path that
starts at the requested start, ends at the requested end, contains no repeated
location, and whose consecutive pairs are joined by links of the graph. -/
theorem C3_path_validity (s g : String) (alpha : ℚ) (l : List RouteResult)
    (r : RouteResult) (h : optimize_routes s g alpha = Except.ok l)
    (hr : r ∈ l) : IsSimplePath pune_links s g r.path := by
  obtain ⟨-, hl⟩ := optimize_routes_ok_eq h
  rw [hl] at hr
  have hmem : r ∈ fallback_routes s g :=
    List.mem_of_mem_take ((stable_sort_perm green_ge _).mem_iff.mp hr)
  obtain ⟨r0, hsrc, hpath, -, -, -, -⟩ := fallback_routes_mem hmem
  rw [hpath]
  rcases hsrc with h0 | h0 <;>
  · rw [find_path] at h0
    exact (find_path_sound popMin_popSpec pune_links_nonneg h0).1

/-- Witness for C3 at the concrete request `("B", "I", 1)`. -/
theorem C3_witness :
    IsSimplePath pune_links "B" "I"
      (RouteResult.path ⟨["B", "D", "E", "I"], 12, 25, 900, 89, "fast"⟩) :=
  C3_path_validity "B" "I" 1 [⟨["B", "D", "E", "I"], 12, 25, 900, 89, "fast"⟩] _
    (by decide) (by decide)

/-- C4: every `RouteResult` returned by `optimize_routes` (the eco +20 and
rl-optimized +10 bonuses included) satisfies
`0 ≤ green_points_score ≤ 150`, `total_time ≥ 0`, `total_distance ≥ 0` and
`total_emissions ≥ 0`. -/
theorem C4_bounds (s g : String) (alpha : ℚ) (l : List RouteResult)
    (r : RouteResult) (h : optimize_routes s g alpha = Except.ok l)
    (hr : r ∈ l) :
    0 ≤ r.green_points_score ∧ r.green_points_score ≤ 150 ∧
      0 ≤ r.total_time ∧ 0 ≤ r.total_distance ∧ 0 ≤ r.total_emissions := by
  obtain ⟨-, hl⟩ := optimize_routes_ok_eq h
  rw [hl] at hr
  have hmem : r ∈ fallback_routes s g :=
    List.mem_of_mem_take ((stable_sort_perm green_ge _).mem_iff.mp hr)
  obtain ⟨r0, hsrc, -, htime, hdist, hem, hgreen⟩ := fallback_routes_mem hmem
  have hb : 0 ≤ r0.total_time ∧ 0 ≤ r0.total_distance ∧ 0 ≤ r0.total_emissions ∧
      0 ≤ r0.green_points_score ∧ r0.green_points_score ≤ 100 := by
    rcases hsrc with h0 | h0 <;>
    · rw [find_path] at h0
      exact find_path_bounds popMin_popSpec pune_links_nonneg
        pune_links_dist_nonneg h0
  refine ⟨?_, ?_, htime ▸ hb.1, hdist ▸ hb.2.1, hem ▸ hb.2.2.1⟩
  · rcases hgreen with hg | hg <;> rw [hg] <;> omega
  · rcases hgreen with hg | hg <;> rw [hg] <;> omega

/-! ### Claim C5: the spec's example scenario -/

/-- C5 counterexample: on the example graph, `find_path(A, D, alpha=0.1)` does
not return A→B→D; it returns A→C→D (the emissions term dominates the combined
cost even at `alpha = 0.1`, since a minute of travel carries 100 units of base
emissions). -/
theorem C5_counterexample :
    find_path ex_nodes ex_links "A" "D" (qnorm 1 10) =
      some ⟨["A", "C", "D"], 16, 0, 160, 96, "optimal"⟩ ∧
    (["A", "C", "D"] : List String) ≠ ["A", "B", "D"] := by
  constructor
  · decide
  · decide

/-- C5 amended: on the example graph both `find_path(A, D, 0.1)` and
`find_path(A, D, 2.0)` return the path A→C→D, and at both alphas A→C→D has
strictly smaller accumulated combined cost than the path A→B→D that the
original claim designated for `alpha = 0.1`. -/
theorem C5_amended :
    (find_path ex_nodes ex_links "A" "D" (qnorm 1 10)).map RouteResult.path =
      some ["A", "C", "D"] ∧
    (find_path ex_nodes ex_links "A" "D" 2).map RouteResult.path =
      some ["A", "C", "D"] ∧
    path_combined_cost ex_links (qnorm 1 10) ["A", "C", "D"] <
      path_combined_cost ex_links (qnorm 1 10) ["A", "B", "D"] ∧
    path_combined_cost ex_links 2 ["A", "C", "D"] <
      path_combined_cost ex_links 2 ["A", "B", "D"] := by
  refine ⟨by decide, by decide, ?_, ?_⟩
  · exact (qlt_iff _ _).mp (by decide)
  · exact (qlt_iff _ _).mp (by decide)

/-! ### Claim C8: referential integrity at construction -/

/-- C8 counterexample: building the pathfinder from links that reference the
unknown location "X" does not fail — the adjacency graph is built — and a
request is served from that graph, returning a route that travels through the
unknown location. -/
theorem C8_counterexample :
    build_graph dangling_links "A" = [⟨"A", "X", 1, 1, false, 1, 1⟩] ∧
    find_path dangling_nodes dangling_links "A" "B" 1 =
      some ⟨["A", "X", "B"], 2, 2, 200, 97, "optimal"⟩ ∧
    "X" ∉ dangling_nodes := by
  refine ⟨by decide, by decide, by decide⟩

/-- C8 amended: construction performs no referential-integrity check —
`_build_graph` accepts any link list and simply groups links by source
(`build_graph links v` is the sublist of links out of `v`), and requests are
served from such a graph: `find_path` checks only that the requested start and
end are known, and returns routes through locations absent from the location
set. -/
theorem C8_amended :
    (∀ (links : List RouteLink) (v : String),
      build_graph links v = links.filter (fun l => l.from_node == v)) ∧
    find_path dangling_nodes dangling_links "A" "B" 1 =
      some ⟨["A", "X", "B"], 2, 2, 200, 97, "optimal"⟩ ∧
    "X" ∉ dangling_nodes := by
  refine ⟨fun links v => rfl, by decide, by decide⟩

/-! ### Claim C9: input validation -/

/-- C9 counterexample: `optimize_routes` performs no input validation — the
invalid request `start = end = "A"` is served normally and yields a one-route
list (the single-location path), not an error. -/
theorem C9_counterexample :
    optimize_routes "A" "A" 1 =
      Except.ok [⟨["A"], 0, 0, 0, 100, "fast"⟩] := by
  decide

/-- C9 amended: the service method `optimize_routes` itself performs no input
validation and returns a normal route list for invalid requests (e.g. start =
end); request validation lives in the API model `RouteOptimizationRequest`,
which rejects unknown start/end locations, equal start and end, and alpha
outside `[0.1, 2.0]` with a validation error before the service is reached. -/
theorem C9_amended :
    (∀ (s g : String) (a : ℚ),
      (s ∉ valid_nodes ∨ g ∉ valid_nodes ∨ s = g ∨ a < qnorm 1 10 ∨ 2 < a) →
        validate_request s g a = false) ∧
    optimize_routes "A" "A" 1 = Except.ok [⟨["A"], 0, 0, 0, 100, "fast"⟩] := by
  constructor
  · intro s g a h
    rcases h with h | h | h | h | h
    · have hc : valid_nodes.contains s = false := by
        cases hc : valid_nodes.contains s
        · rfl
        · exact absurd ((contains_iff_mem _ _).mp hc) h
      rw [validate_request, hc]
      simp only [Bool.false_and, Bool.and_false]
    · have hc : valid_nodes.contains g = false := by
        cases hc : valid_nodes.contains g
        · rfl
        · exact absurd ((contains_iff_mem _ _).mp hc) h
      rw [validate_request, hc]
      simp only [Bool.false_and, Bool.and_false]
    · subst h
      rw [validate_request]
      simp only [beq_self_eq_true, Bool.not_true, Bool.false_and, Bool.and_false]
    · have hc : qle (qnorm 1 10) a = false := by
        cases hc : qle (qnorm 1 10) a
        · rfl
        · exact absurd ((qle_iff _ _).mp hc) (not_le.mpr h)
      rw [validate_request, hc]
      simp only [Bool.false_and, Bool.and_false]
    · have hc : qle a 2 = false := by
        cases hc : qle a 2
        · rfl
        · exact absurd ((qle_iff _ _).mp hc) (not_le.mpr h)
      rw [validate_request, hc]
      simp only [Bool.false_and, Bool.and_false]
  · decide

/-- Witness for C9's amended validation statement at the concrete invalid
request `start = end = "A"`. -/
theorem C9_witness : validate_request "A" "A" 1 = false :=
  C9_amended.1 "A" "A" 1 (Or.inr (Or.inr (Or.inl rfl)))

/-! ### Claim C6: alpha sensitivity of emissions -/

theorem find_path_some_mem {nodes : List String} {links : List RouteLink}
    {s g : String} {alpha : ℚ} {r : RouteResult}
    (h : find_path nodes links s g alpha = some r) : s ∈ nodes ∧ g ∈ nodes := by
  rw [find_path, find_path_with] at h
  by_cases hguard : (nodes.contains s && nodes.contains g) = true
  · rw [Bool.and_eq_true] at hguard
    exact ⟨(contains_iff_mem _ _).mp hguard.1, (contains_iff_mem _ _).mp hguard.2⟩
  · rw [if_neg hguard] at h
    cases h

/-- C6 counterexample: the single-search emissions are not monotone in alpha.
For start C and end A, with `a1 = 0.1 < a2 = 0.15` (both within `[0.1, 2.0]`),
the route at `a2` has total emissions 600, strictly less than the 1400 of the
route at `a1`: raising alpha DID decrease the emissions. -/
theorem C6_counterexample :
    (find_path pune_nodes pune_links "C" "A" (qnorm 1 10)).map
        RouteResult.total_emissions = some 1400 ∧
    (find_path pune_nodes pune_links "C" "A" (qnorm 3 20)).map
        RouteResult.total_emissions = some 600 ∧
    qnorm 1 10 < qnorm 3 20 ∧ qnorm 3 20 ≤ 2 ∧ (600 : ℚ) < 1400 := by
  refine ⟨by decide, by decide, (qlt_iff _ _).mp (by decide),
    (qle_iff _ _).mp (by decide), by norm_num⟩

/-- C6 amended: at the extreme alphas of the configured range, emissions do
not decrease with alpha: for every start and end, the total emissions of the
route returned by `find_path(start, end, 2.0)` are never less than those of
the route returned by `find_path(start, end, 0.1)`.  (Between intermediate
alphas the relation is non-monotone in both directions, as the counterexample
shows.) -/
theorem C6_amended (s g : String) (r1 r2 : RouteResult)
    (h1 : find_path pune_nodes pune_links s g (qnorm 1 10) = some r1)
    (h2 : find_path pune_nodes pune_links s g 2 = some r2) :
    r1.total_emissions ≤ r2.total_emissions := by
  have hall : (pune_nodes.all fun a => pune_nodes.all fun b =>
      match find_path pune_nodes pune_links a b (qnorm 1 10),
          find_path pune_nodes pune_links a b 2 with
      | some x, some y => qle x.total_emissions y.total_emissions
      | _, _ => true) = true := by decide
  obtain ⟨hs, hg⟩ := find_path_some_mem h1
  have hrow := List.all_eq_true.mp (List.all_eq_true.mp hall s hs) g hg
  rw [h1, h2] at hrow
  exact (qle_iff _ _).mp hrow

/-- Witness for C6's amended statement at the concrete pair (C, A). -/
theorem C6_witness :
    (1400 : ℚ) ≤ 1785 :=
  C6_amended "C" "A" ⟨["C", "D", "B", "A"], 14, 28, 1400, 84, "optimal"⟩
    ⟨["C", "F", "H", "G", "D", "B", "A"], 26, 60, 1785, 79, "optimal"⟩
    (by decide) (by decide)

/-! ### Claim C7: determinism of the search -/

/-- C7: the search is deterministic — its observable result does not depend on
which valid `heappop` resolution of ties among equal frontier tuples is used:
any two pop functions satisfying the heap contract produce identical results
for every graph, start, end and alpha (and hence two runs with identical
arguments return identical paths). -/
theorem C7_deterministic
    (pop1 pop2 : List SearchEntry → Option (SearchEntry × List SearchEntry))
    (h1 : PopSpec pop1) (h2 : PopSpec pop2) (nodes : List String)
    (links : List RouteLink) (s g : String) (alpha : ℚ) :
    find_path_with pop1 nodes links s g alpha =
      find_path_with pop2 nodes links s g alpha := by
  rw [find_path_with, find_path_with,
    find_path_aux_with_congr h1 h2 links g alpha (search_fuel links s)
      [⟨0, 0, s, [s]⟩] [⟨0, 0, s, [s]⟩] [] (List.Perm.refl _)]

/-- Witness for C7 with the concrete frontier model on the Pune graph. -/
theorem C7_witness :
    find_path_with popMin pune_nodes pune_links "A" "J" 1 =
      find_path_with popMin pune_nodes pune_links "A" "J" 1 :=
  C7_deterministic popMin popMin popMin_popSpec popMin_popSpec
    pune_nodes pune_links "A" "J" 1

/-! ### Claim C1: optimality and totality of the search -/

/-- C1 counterexample: the search does not minimise the accumulated combined
cost.  On a four-location graph with non-negative attributes, known start and
end, and `alpha = 1` in `[0.1, 2.0]`, `find_path` returns A→B→D with combined
cost 65 although the simple path A→C→D costs 60: the frontier priority
carries only the emissions of the most recent link, so the A→B link's
emissions are forgotten once B is expanded. -/
theorem C1_counterexample :
    (find_path cex_nodes cex_links "A" "D" 1).map RouteResult.path =
      some ["A", "B", "D"] ∧
    IsSimplePath cex_links "A" "D" ["A", "C", "D"] ∧
    path_combined_cost cex_links 1 ["A", "C", "D"] <
      path_combined_cost cex_links 1 ["A", "B", "D"] ∧
    NonnegLinks cex_links ∧ qnorm 1 10 ≤ (1 : ℚ) ∧ (1 : ℚ) ≤ 2 ∧
    "A" ∈ cex_nodes ∧ "D" ∈ cex_nodes := by
  refine ⟨by decide, by decide, (qlt_iff _ _).mp (by decide),
    nonnegLinks_of_check _ (by decide), (qle_iff _ _).mp (by decide),
    by norm_num, by decide, by decide⟩

/-! ### Completeness of the search -/

theorem filter_count_cons (w : String) :
    ∀ (U closed : List String), U.Nodup → w ∈ U → w ∉ closed →
      (U.filter (fun v => !(w :: closed).contains v)).length + 1 =
        (U.filter (fun v => !closed.contains v)).length := by
  intro U
  induction U with
  | nil => intro closed _ hw _; cases hw
  | cons u U' ih =>
    intro closed hnodup hw hwc
    have hnd' : U'.Nodup := (List.nodup_cons.mp hnodup).2
    rcases List.mem_cons.mp hw with rfl | hwU'
    · have hwnotU' : w ∉ U' := (List.nodup_cons.mp hnodup).1
      have hfe : U'.filter (fun v => !(w :: closed).contains v) =
          U'.filter (fun v => !closed.contains v) := by
        apply List.filter_congr
        intro v hv
        have hvw : (v == w) = false := by
          rw [beq_eq_false_iff_ne]
          intro heq
          exact hwnotU' (heq ▸ hv)
        rw [List.contains_cons, hvw, Bool.false_or]
      have hw1 : ((w :: closed).contains w) = true := by
        rw [List.contains_cons]
        simp
      have hw2 : (closed.contains w) = false := by
        cases hc : closed.contains w
        · rfl
        · exact absurd ((contains_iff_mem _ _).mp hc) hwc
      rw [List.filter_cons, List.filter_cons, hw1, hw2]
      rw [if_neg (by simp), if_pos (by simp)]
      rw [hfe, List.length_cons]
    · have hwu : w ≠ u := by
        intro heq
        exact (List.nodup_cons.mp hnodup).1 (heq ▸ hwU')
      have hcc : ((w :: closed).contains u) = (closed.contains u) := by
        rw [List.contains_cons, beq_eq_false_iff_ne.mpr (fun h => hwu h.symm),
          Bool.false_or]
      rw [List.filter_cons, List.filter_cons, hcc]
      have hih := ih closed hnd' hwU' hwc
      cases hc : closed.contains u
      · rw [if_pos (by simp), if_pos (by simp), List.length_cons, List.length_cons]
        omega
      · rw [if_neg (by simp), if_neg (by simp)]
        exact hih

theorem expand_mem_char {links : List RouteLink} {alpha : ℚ} {e : SearchEntry}
    {c : List String} {x : SearchEntry} (hx : x ∈ expand links alpha e c) :
    ∃ l ∈ links, l.from_node = e.node ∧ x.node = l.to_node := by
  rw [expand, List.mem_filterMap] at hx
  obtain ⟨l, hl, hfl⟩ := hx
  rw [build_graph, List.mem_filter] at hl
  by_cases hcont : (c.contains l.to_node) = true
  · rw [if_pos hcont] at hfl
    cases hfl
  · rw [if_neg hcont] at hfl
    cases hfl
    exact ⟨l, hl.1, by simpa using hl.2, rfl⟩

theorem linkedPath_get {links : List RouteLink} {p : List String}
    (hchain : LinkedPath links p) {i : ℕ} {a b : String}
    (ha : p[i]? = some a) (hb : p[i + 1]? = some b) : LinkedTo links a b := by
  rw [LinkedPath, List.chain'_iff_get] at hchain
  obtain ⟨hia, hga⟩ := List.getElem?_eq_some_iff.mp ha
  obtain ⟨hib, hgb⟩ := List.getElem?_eq_some_iff.mp hb
  have hlt : i < p.length - 1 := by omega
  have := hchain i hlt
  rw [List.get_eq_getElem, List.get_eq_getElem] at this
  rw [← hga, ← hgb]
  exact this

theorem find_frontier_index (p : List String) (closed : List String)
    (goal : String) (hlast : p.getLast? = some goal) (hgoal : goal ∉ closed) :
    ∀ n j, p.length - j = n → j < p.length →
      (∀ i, i ≤ j → ∀ x, p[i]? = some x → x ∈ closed) →
      ∃ k y, j < k ∧ k < p.length ∧
        (∀ i, i < k → ∀ x, p[i]? = some x → x ∈ closed) ∧
        p[k]? = some y ∧ y ∉ closed := by
  intro n
  induction n with
  | zero => intro j hn hj _; omega
  | succ n ih =>
    intro j hn hj hpre
    have hplen : p.length ≠ 0 := by omega
    have hjlast : j ≠ p.length - 1 := by
      intro heq
      have : p[j]? = some goal := by
        rw [heq, ← List.getLast?_eq_getElem?]
        exact hlast
      exact hgoal (hpre j (le_refl j) goal this)
    have hj1 : j + 1 < p.length := by omega
    obtain ⟨y, hy⟩ : ∃ y, p[j + 1]? = some y := by
      have : p[j + 1]? = some (p.get ⟨j + 1, hj1⟩) := by
        rw [List.get_eq_getElem]
        exact List.getElem?_eq_some_iff.mpr ⟨hj1, rfl⟩
      exact ⟨_, this⟩
    by_cases hyc : y ∈ closed
    · have hpre' : ∀ i, i ≤ j + 1 → ∀ x, p[i]? = some x → x ∈ closed := by
        intro i hi x hx
        rcases Nat.lt_or_ge i (j + 1) with hlt | hge
        · exact hpre i (by omega) x hx
        · have : i = j + 1 := by omega
          subst this
          rw [hy] at hx
          cases hx
          exact hyc
      have hn' : p.length - (j + 1) = n := by omega
      obtain ⟨k, y2, hk1, hk2, hk3, hk4, hk5⟩ := ih (j + 1) hn' hj1 hpre'
      exact ⟨k, y2, by omega, hk2, hk3, hk4, hk5⟩
    · refine ⟨j + 1, y, by omega, hj1, ?_, hy, hyc⟩
      intro i hi x hx
      exact hpre i (by omega) x hx

theorem find_path_aux_complete
    {pop : List SearchEntry → Option (SearchEntry × List SearchEntry)}
    (hpop : PopSpec pop) (links : List RouteLink) (goal : String) (alpha : ℚ)
    (U : List String) (hUnodup : U.Nodup)
    (hlinksU : ∀ l ∈ links, l.to_node ∈ U)
    (p : List String) (hchain : LinkedPath links p)
    (hlast : p.getLast? = some goal) :
    ∀ fuel open_set closed_set,
      (∀ e ∈ open_set, e.node ∈ U) →
      goal ∉ closed_set →
      (∀ v ∈ closed_set, ∀ l ∈ links, l.from_node = v →
        (l.to_node ∈ closed_set ∨ ∃ e ∈ open_set, e.node = l.to_node)) →
      (∃ j x, j < p.length ∧ p[j]? = some x ∧
        (∀ i, i < j → ∀ z, p[i]? = some z → z ∈ closed_set) ∧
        x ∉ closed_set ∧ ∃ e ∈ open_set, e.node = x) →
      open_set.length +
          links.length * ((U.filter (fun v => !closed_set.contains v)).length) <
        fuel →
      ∃ res,
        find_path_aux_with pop links goal alpha fuel open_set closed_set =
          some res := by
  intro fuel
  induction fuel with
  | zero =>
    intro open_set closed_set _ _ _ _ hfuel
    omega
  | succ fuel ih =>
    intro open_set closed_set hnodesU hgoalc hclosure hwit hfuel
    obtain ⟨j, x, hj, hjx, hpre, hxnc, e0, he0mem, he0node⟩ := hwit
    cases hp : pop open_set with
    | none =>
      exfalso
      have : open_set = [] := (hpop.1 open_set).mp hp
      subst this
      cases he0mem
    | some pr =>
      cases pr with
      | mk e rest =>
        obtain ⟨hperm, -⟩ := hpop.2 open_set e rest hp
        have hlen : open_set.length = rest.length + 1 := by
          rw [hperm.length_eq]
          rfl
        have hmem_of_rest : ∀ y ∈ rest, y ∈ open_set := fun y hy =>
          hperm.mem_iff.mpr (List.mem_cons_of_mem _ hy)
        have hmem_e : e ∈ open_set :=
          hperm.mem_iff.mpr (List.mem_cons_self _ _)
        have hsplit : ∀ y ∈ open_set, y = e ∨ y ∈ rest := fun y hy =>
          List.mem_cons.mp (hperm.mem_iff.mp hy)
        by_cases hgoal_e : (e.node == goal) = true
        · refine ⟨(e.path, e.g), ?_⟩
          simp only [find_path_aux_with, hp]
          rw [if_pos hgoal_e]
        · have hne_goal : e.node ≠ goal := fun hh =>
            hgoal_e (beq_iff_eq.mpr hh)
          by_cases hcl : (closed_set.contains e.node) = true
          · -- skip branch
            have hein : e.node ∈ closed_set := (contains_iff_mem _ _).mp hcl
            have hres := ih rest closed_set
              (fun y hy => hnodesU y (hmem_of_rest y hy)) hgoalc
              (by
                intro v hv l hl hfrom
                rcases hclosure v hv l hl hfrom with htc | ⟨e', he'mem, he'node⟩
                · exact Or.inl htc
                · rcases hsplit e' he'mem with rfl | he'rest
                  · exact Or.inl (he'node ▸ hein)
                  · exact Or.inr ⟨e', he'rest, he'node⟩)
              (by
                refine ⟨j, x, hj, hjx, hpre, hxnc, e0, ?_, he0node⟩
                rcases hsplit e0 he0mem with rfl | h0
                · exact absurd (he0node ▸ hein) hxnc
                · exact h0)
              (by omega)
            obtain ⟨res, hres⟩ := hres
            refine ⟨res, ?_⟩
            simp only [find_path_aux_with, hp]
            rw [if_neg hgoal_e, if_pos hcl]
            exact hres
          · -- process branch
            have henotc : e.node ∉ closed_set := fun hmem =>
              hcl ((contains_iff_mem _ _).mpr hmem)
            have heU : e.node ∈ U := hnodesU e hmem_e
            have hgoalc' : goal ∉ e.node :: closed_set := by
              intro hmem
              rcases List.mem_cons.mp hmem with heq | hmem'
              · exact hne_goal heq.symm
              · exact hgoalc hmem'
            have hclosure' : ∀ v ∈ e.node :: closed_set, ∀ l ∈ links,
                l.from_node = v →
                (l.to_node ∈ e.node :: closed_set ∨
                  ∃ e' ∈ rest ++ expand links alpha e (e.node :: closed_set),
                    e'.node = l.to_node) := by
              intro v hv l hl hfrom
              by_cases htc : l.to_node ∈ e.node :: closed_set
              · exact Or.inl htc
              · have htcb : ((e.node :: closed_set).contains l.to_node) = false := by
                  cases hb : (e.node :: closed_set).contains l.to_node
                  · rfl
                  · exact absurd ((contains_iff_mem _ _).mp hb) htc
                rcases List.mem_cons.mp hv with rfl | hvold
                · refine Or.inr ⟨⟨qadd (qadd e.g (qmul l.time l.traffic_factor))
                      (qmul alpha (emissions_cost l)),
                      qadd e.g (qmul l.time l.traffic_factor),
                      l.to_node, e.path ++ [l.to_node]⟩, ?_, rfl⟩
                  apply List.mem_append_right
                  rw [expand, List.mem_filterMap]
                  refine ⟨l, ?_, ?_⟩
                  · rw [build_graph, List.mem_filter]
                    exact ⟨hl, beq_iff_eq.mpr hfrom⟩
                  · rw [htcb]
                    rfl
                · rcases hclosure v hvold l hl hfrom with htold | ⟨e', he'mem, he'node⟩
                  · exact absurd (List.mem_cons_of_mem _ htold) htc
                  · rcases hsplit e' he'mem with rfl | he'rest
                    · exact absurd (he'node ▸ List.mem_cons_self _ _) htc
                    · exact Or.inr ⟨e', List.mem_append_left _ he'rest, he'node⟩
            have hwit' : ∃ j' x', j' < p.length ∧ p[j']? = some x' ∧
                (∀ i, i < j' → ∀ z, p[i]? = some z → z ∈ e.node :: closed_set) ∧
                x' ∉ e.node :: closed_set ∧
                ∃ e' ∈ rest ++ expand links alpha e (e.node :: closed_set),
                  e'.node = x' := by
              by_cases hex : e.node = x
              · -- the frontier location on p was just closed; advance along p
                have hpre2 : ∀ i, i ≤ j → ∀ z, p[i]? = some z →
                    z ∈ e.node :: closed_set := by
                  intro i hi z hz
                  rcases Nat.lt_or_ge i j with hlt | hge
                  · exact List.mem_cons_of_mem _ (hpre i hlt z hz)
                  · have : i = j := by omega
                    subst this
                    rw [hjx] at hz
                    cases hz
                    exact hex ▸ List.mem_cons_self _ _
                obtain ⟨k, y, hk1, hk2, hk3, hk4, hk5⟩ :=
                  find_frontier_index p (e.node :: closed_set) goal hlast hgoalc'
                    (p.length - j) j rfl hj hpre2
                have hk0 : 0 < k := by omega
                obtain ⟨z, hz⟩ : ∃ z, p[k - 1]? = some z := by
                  have hklen : k - 1 < p.length := by omega
                  exact ⟨p.get ⟨k - 1, hklen⟩,
                    List.getElem?_eq_some_iff.mpr ⟨hklen, rfl⟩⟩
                have hzc : z ∈ e.node :: closed_set := hk3 (k - 1) (by omega) z hz
                have hlink : LinkedTo links z y := by
                  have : k - 1 + 1 = k := by omega
                  exact linkedPath_get hchain hz (this ▸ hk4)
                obtain ⟨l, hl, hlfrom, hlto⟩ := hlink
                rcases hclosure' z hzc l hl hlfrom with hyc | ⟨e', he'mem, he'node⟩
                · exact absurd (hlto ▸ hyc) hk5
                · exact ⟨k, y, hk2, hk4, hk3, hk5, e', he'mem, hlto ▸ he'node⟩
              · -- the popped node is not the frontier location on p
                refine ⟨j, x, hj, hjx, ?_, ?_, e0, ?_, he0node⟩
                · intro i hi z hz
                  exact List.mem_cons_of_mem _ (hpre i hi z hz)
                · intro hmem
                  rcases List.mem_cons.mp hmem with heq | hmem'
                  · exact hex heq.symm
                  · exact hxnc hmem'
                · rcases hsplit e0 he0mem with rfl | h0
                  · exact absurd he0node hex
                  · exact List.mem_append_left _ h0
            have hcnt := filter_count_cons e.node U closed_set hUnodup heU henotc
            have hexp : (expand links alpha e (e.node :: closed_set)).length ≤
                links.length := by
              calc (expand links alpha e (e.node :: closed_set)).length
                  ≤ (build_graph links e.node).length :=
                    List.length_filterMap_le _ _
              _ ≤ links.length := List.length_filter_le _ _
            have hres := ih (rest ++ expand links alpha e (e.node :: closed_set))
              (e.node :: closed_set)
              (by
                intro y hy
                rcases List.mem_append.mp hy with hy | hy
                · exact hnodesU y (hmem_of_rest y hy)
                · obtain ⟨l, hl, -, hto⟩ := expand_mem_char hy
                  exact hto ▸ hlinksU l hl)
              hgoalc' hclosure' hwit'
              (by
                rw [List.length_append]
                have h1 : links.length *
                    ((U.filter (fun v => !closed_set.contains v)).length) =
                    links.length *
                      ((U.filter
                        (fun v => !(e.node :: closed_set).contains v)).length) +
                      links.length := by
                  rw [← hcnt]
                  ring
                omega)
            obtain ⟨res, hres⟩ := hres
            refine ⟨res, ?_⟩
            simp only [find_path_aux_with, hp]
            rw [if_neg hgoal_e, if_neg hcl]
            exact hres

theorem find_path_complete
    (nodes : List String) (links : List RouteLink) (s g : String) (alpha : ℚ)
    (hs : s ∈ nodes) (hg : g ∈ nodes)
    (p : List String) (hhead : p.head? = some s) (hlast : p.getLast? = some g)
    (hchain : LinkedPath links p) :
    ∃ r, find_path nodes links s g alpha = some r := by
  have hplen : 0 < p.length := by
    cases p with
    | nil => cases hhead
    | cons a t => simp
  have hp0 : p[0]? = some s := by
    rw [← List.head?_eq_getElem?]
    exact hhead
  have hUmem : ∀ l ∈ links,
      l.to_node ∈ (s :: links.map (fun l => l.to_node)).dedup := by
    intro l hl
    exact List.mem_dedup.mpr
      (List.mem_cons_of_mem _ (List.mem_map_of_mem _ hl))
  obtain ⟨res, hres⟩ := find_path_aux_complete popMin_popSpec links g alpha
    ((s :: links.map (fun l => l.to_node)).dedup) (List.nodup_dedup _)
    hUmem p hchain hlast (search_fuel links s)
    [⟨0, 0, s, [s]⟩] []
    (by
      intro e he
      rcases List.mem_singleton.mp he with rfl
      exact List.mem_dedup.mpr (List.mem_cons_self _ _))
    (by simp)
    (by intro v hv; cases hv)
    ⟨0, s, hplen, hp0, fun i hi => absurd hi (Nat.not_lt_zero _),
      by simp, ⟨0, 0, s, [s]⟩, List.mem_singleton.mpr rfl, rfl⟩
    (by
      have hfilter :
          (((s :: links.map (fun l => l.to_node)).dedup).filter
            (fun v => !([] : List String).contains v)) =
          (s :: links.map (fun l => l.to_node)).dedup := by
        simp
      rw [hfilter, search_fuel]
      simp
      omega)
  obtain ⟨p', g'⟩ := res
  have hguard : (nodes.contains s && nodes.contains g) = true := by
    rw [Bool.and_eq_true]
    exact ⟨(contains_iff_mem _ _).mpr hs, (contains_iff_mem _ _).mpr hg⟩
  refine ⟨⟨p', g', (calculate_route_metrics links p').1,
    (calculate_route_metrics links p').2,
    calculate_green_points (calculate_route_metrics links p').2 g',
    "optimal"⟩, ?_⟩
  rw [find_path, find_path_with, if_pos hguard]
  rw [hres]

/-- **C1.** (amended) For every graph with non-negative link times, traffic
factors and emissions multipliers, known start and end nodes, and any alpha:
(soundness) every route returned by `find_path` follows a simple path of
graph links from start to end; and (completeness) whenever any linked path
from start to end exists, `find_path` returns some route.  The original
claim's minimality clause is refuted by `C1_counterexample`: the pushed
priority adds only the *current* link's emissions to `g` instead of the
accumulated emissions, so the search does not minimise the combined cost. -/
theorem C1_amended (nodes : List String) (links : List RouteLink)
    (s g : String) (alpha : ℚ) (hnn : NonnegLinks links)
    (hs : s ∈ nodes) (hg : g ∈ nodes) :
    (∀ r, find_path nodes links s g alpha = some r →
      IsSimplePath links s g r.path) ∧
    ((∃ p, p.head? = some s ∧ p.getLast? = some g ∧ LinkedPath links p) →
      ∃ r, find_path nodes links s g alpha = some r) := by
  constructor
  · intro r hr
    exact (find_path_sound popMin_popSpec hnn hr).1
  · rintro ⟨p, hh, hl, hc⟩
    exact find_path_complete nodes links s g alpha hs hg p hh hl hc

/-- Witness for `C1_amended` at the Pune graph, start `A`, goal `J`,
`alpha = 1`, with the linked path `A-B-D-E-J` as existence certificate. -/
theorem C1_witness :
    ∃ r, find_path pune_nodes pune_links "A" "J" 1 = some r :=
  (C1_amended pune_nodes pune_links "A" "J" 1 pune_links_nonneg
    (by decide) (by decide)).2
    ⟨["A", "B", "D", "E", "J"], by decide, by decide, by decide⟩

/-- Witness for `C4_bounds`: the request `(B, I, alpha = 1)` succeeds with a
single route whose metrics satisfy all the bounds. -/
theorem C4_witness :
    (0 : ℤ) ≤ 89 ∧ (89 : ℤ) ≤ 150 ∧ (0 : ℚ) ≤ 12 ∧ (0 : ℚ) ≤ 25 ∧
      (0 : ℚ) ≤ 900 :=
  C4_bounds "B" "I" 1 [⟨["B", "D", "E", "I"], 12, 25, 900, 89, "fast"⟩]
    ⟨["B", "D", "E", "I"], 12, 25, 900, 89, "fast"⟩ (by decide)
    (List.mem_singleton.mpr rfl)
